import Mathlib

/-!
Shallow embedding of the doodle-reveal engine of this repository
(`create_doodle_video_v8.py` and the cited backup variants), together with
proofs checking the natural-language specification against it.

Conventions of the embedding:
* Python floats are embedded as exact rationals (`ℚ`); all the arithmetic
  the cited code performs on them (+, -, *, /, comparisons, `int(...)`
  truncation) is exact on the inputs we reason about.
* Python dicts holding glyph records become the `Glyph` structure with the
  same field names.
* Calls into the external OpenCV library (`cv2.*`) are not repository code;
  where a claim depends on them they are modelled from their documented
  behaviour, and the model is stated in the comment of the definition.
-/

namespace Doodle

/-- Python `int(q)` on a nonnegative or negative rational: truncation
toward zero. -/
def pyInt (q : ℚ) : ℤ := if q < 0 then ⌈q⌉ else ⌊q⌋

/-- One traced outline of a connected ink region, as stored in the
`shifted_contours` list of `generate`: the polyline points `pts` (canvas
coordinates) and the cached arc length `len` (`cv2.arcLength(cnt, True)`). -/
structure Contour where
  pts : List (ℚ × ℚ)
  len : ℚ
deriving DecidableEq

/-- A glyph record, the Python dict built in `generate`
(`create_doodle_video_v8.py` lines 210-216): bounding box `x, y, w, h`,
pixel `area`, traced `contours`, cached `total_len` and the `center` pair. -/
structure Glyph where
  x : ℚ
  y : ℚ
  w : ℚ
  h : ℚ
  area : ℚ
  contours : List Contour
  total_len : ℚ
  center : ℚ × ℚ
deriving DecidableEq

/-! ## Glyph grouper / merger (`_safely_merge_words`) -/

/-- The MERGE branch of `_safely_merge_words` (v8 lines 151-164): union the
bounding boxes, sum `area` and `total_len`, concatenate the contour lists
and recompute the center from the new box. -/
def mergeGlyphs (cur g : Glyph) : Glyph :=
  let newX := min cur.x g.x
  let newY := min cur.y g.y
  let newR := max (cur.x + cur.w) (g.x + g.w)
  let newB := max (cur.y + cur.h) (g.y + g.h)
  { x := newX
    y := newY
    w := newR - newX
    h := newB - newY
    area := cur.area + g.area
    contours := cur.contours ++ g.contours
    total_len := cur.total_len + g.total_len
    center := (newX + (newR - newX) / 2, newY + (newB - newY) / 2) }

/-- Vertical alignment test of `_safely_merge_words`:
`abs(cy1 - cy2) < avg_h * V` with `avg_h = (h1 + h2) / 2`. -/
def vertMatch (V : ℚ) (cur g : Glyph) : Bool :=
  decide (|cur.center.2 - g.center.2| < ((cur.h + g.h) / 2) * V)

/-- Horizontal adjacency test of `_safely_merge_words`: the gap between the
accumulator box and the next box satisfies
`gap < avg_h * Hmax and gap > -(avg_h * Hmin)`. -/
def horizMatch (Hmin Hmax : ℚ) (cur g : Glyph) : Bool :=
  let gap := g.x - (cur.x + cur.w)
  decide (gap < ((cur.h + g.h) / 2) * Hmax) &&
    decide (gap > -(((cur.h + g.h) / 2) * Hmin))

/-- One step of the accumulator loop of `_safely_merge_words`: the state is
(list of finished words, current accumulator); the next glyph is merged
into the accumulator exactly when both match conditions hold, otherwise the
accumulator is emitted and the glyph starts a new accumulator. -/
def mergeStep (V Hmin Hmax : ℚ) (s : List Glyph × Glyph) (g : Glyph) :
    List Glyph × Glyph :=
  if vertMatch V s.2 g && horizMatch Hmin Hmax s.2 g then
    (s.1, mergeGlyphs s.2 g)
  else
    (s.1 ++ [s.2], g)

/-- Insert into a sorted list, before the first element the new element
precedes strictly; equal keys stay behind already-placed ones. -/
def insertSorted {α : Type} (le : α → α → Bool) (x : α) : List α → List α
  | [] => [x]
  | y :: ys => if le x y then x :: y :: ys else y :: insertSorted le x ys

/-- Stable insertion sort.  Python `list.sort` / `sorted` is a stable sort;
for a comparator that is a total preorder a stable sort is unique, so this
structurally recursive sort computes exactly what the Python calls
compute. -/
def insertionSort {α : Type} (le : α → α → Bool) : List α → List α
  | [] => []
  | x :: xs => insertSorted le x (insertionSort le xs)

/-- Comparator of the Python stable sort `candidates.sort(key=(y, x))`:
lexicographic order on the pair `(y, x)`. -/
def yxLe (a b : Glyph) : Bool :=
  decide (a.y < b.y) || (decide (a.y = b.y) && decide (a.x ≤ b.x))

/-- The `_safely_merge_words` routine, with the constants of the concrete
variants as parameters: glyphs of area below `aThresh` are merge
candidates and the rest bypass; candidates are scanned in `(y, x)` order by
the accumulator loop. v8 uses `aThresh = 10000, V = 0.7, Hmin = 0.5,
Hmax = 1.2`; v7.3 uses `aThresh = 8000, V = 0.5, Hmin = 0.2, Hmax = 0.4`. -/
def safelyMergeWords (aThresh V Hmin Hmax : ℚ) (glyphs : List Glyph) :
    List Glyph :=
  -- `candidates` is the filter below threshold, `bypass` its complement;
  -- the final state of the accumulator scan is flushed after the loop.
  if glyphs.isEmpty then [] else
  if (glyphs.filter (fun g => decide (g.area < aThresh))).isEmpty then
    glyphs.filter (fun g => !decide (g.area < aThresh))
  else
    match insertionSort yxLe (glyphs.filter (fun g => decide (g.area < aThresh))) with
    | [] => glyphs.filter (fun g => !decide (g.area < aThresh))
    | c0 :: rest =>
      ((rest.foldl (mergeStep V Hmin Hmax) ([], c0)).1
          ++ [(rest.foldl (mergeStep V Hmin Hmax) ([], c0)).2])
        ++ glyphs.filter (fun g => !decide (g.area < aThresh))

/-- Variant `_safely_merge_words` of `create_doodle_video_v8.py` (lines 106-170). -/
def safelyMergeWordsV8 (glyphs : List Glyph) : List Glyph :=
  safelyMergeWords 10000 0.7 0.5 1.2 glyphs

/-- Variant `_safely_merge_words` of `create_doodle_video_v7_3.py` (lines 77-150). -/
def safelyMergeWordsV73 (glyphs : List Glyph) : List Glyph :=
  safelyMergeWords 8000 0.5 0.2 0.4 glyphs

/-! ## Path sequencer, strategy 1: reading-order line clustering
(`_sort_contours_by_path` of `create_doodle_video_v8.py`, lines 51-104) -/

/-- Average of a glyph attribute over a visual line,
`sum(f(item) for item in line) / len(line)`. -/
def lineAvg (f : Glyph → ℚ) (line : List Glyph) : ℚ :=
  (line.map f).sum / line.length

/-- Matching test of the v8 line clustering: the glyph joins the first line
whose average center height is within half the larger height,
`abs(g_cy - l_avg_cy) < max(g_h, l_avg_h) * 0.5`. -/
def lineMatchV8 (g : Glyph) (line : List Glyph) : Bool :=
  decide (|g.center.2 - lineAvg (fun i => i.center.2) line| <
    max g.h (lineAvg (fun i => i.h) line) * 0.5)

/-- Matching test of the v8.1 micro-object clustering
(`create_doodle_video_v8_1.py` line 86):
`abs(g_cy - l_avg_cy) < max(g_h, 30) * 1.5`. -/
def lineMatchV81 (g : Glyph) (line : List Glyph) : Bool :=
  decide (|g.center.2 - lineAvg (fun i => i.center.2) line| <
    max g.h 30 * 1.5)

/-- Insert a glyph into the FIRST existing line it matches (the Python loop
breaks at the first match); when no line matches, a new singleton line is
appended at the end. -/
def addToLines (lineMatch : Glyph → List Glyph → Bool) (g : Glyph) :
    List (List Glyph) → List (List Glyph)
  | [] => [[g]]
  | line :: rest =>
    if lineMatch g line then (line ++ [g]) :: rest
    else line :: addToLines lineMatch g rest

/-- The shared line-clustering sequencer: sort by `y`, cluster into visual
lines, sort the lines by average `y`, sort inside each line by `x`, and
concatenate. -/
def sortGlyphLines (lineMatch : Glyph → List Glyph → Bool)
    (glyphs : List Glyph) : List Glyph :=
  let ySorted := insertionSort (fun a b => decide (a.y ≤ b.y)) glyphs
  let lines := ySorted.foldl (fun ls g => addToLines lineMatch g ls) []
  let lines2 := insertionSort
    (fun l1 l2 => decide (lineAvg (fun i => i.y) l1 ≤ lineAvg (fun i => i.y) l2)) lines
  (lines2.map (fun line => insertionSort (fun a b => decide (a.x ≤ b.x)) line)).flatten

/-- Sequencer `_sort_contours_by_path` of `create_doodle_video_v8.py`: reading-order
line clustering (the guard on the empty list returns the empty list). -/
def sortContoursByPathV8 (glyphs : List Glyph) : List Glyph :=
  if glyphs.isEmpty then [] else sortGlyphLines lineMatchV8 glyphs

/-! ## Path sequencer, strategy 2: nearest-neighbor pen simulation
(`_sort_contours_by_path` of `create_doodle_video_v7_3.py`, lines 40-75) -/

/-- Squared Euclidean distance between two centers, exactly the expression
`(cx - dcx)**2 + (cy - dcy)**2` of the v7.3 loop. -/
def sqDist (p q : ℚ × ℚ) : ℚ := (p.1 - q.1) ^ 2 + (p.2 - q.2) ^ 2

/-- Tail of the Python `max(range(len(glyphs)), key=...)` scan: `i` is the
index of the next element, `best` the best index so far with value `bestV`;
a later element replaces the best only on a strict increase, so the first
maximal index wins. -/
def argmaxFrom (f : Glyph → ℚ) : ℕ → ℕ → ℚ → List Glyph → ℕ
  | _, best, _, [] => best
  | i, best, bestV, g :: rest =>
    if f g > bestV then argmaxFrom f (i + 1) i (f g) rest
    else argmaxFrom f (i + 1) best bestV rest

/-- Index of the first glyph of maximal attribute,
`max(range(len(glyphs)), key=lambda i: glyphs[i][...])`. -/
def argmaxIdx (f : Glyph → ℚ) : List Glyph → ℕ
  | [] => 0
  | g :: rest => argmaxFrom f 1 0 (f g) rest

/-- Tail of the nearest-unvisited scan of v7.3 (lines 60-69): strict
improvement only, so the first minimal index wins. -/
def argminFrom (f : Glyph → ℚ) : ℕ → ℕ → ℚ → List Glyph → ℕ
  | _, best, _, [] => best
  | i, best, bestV, g :: rest =>
    if f g < bestV then argminFrom f (i + 1) i (f g) rest
    else argminFrom f (i + 1) best bestV rest

/-- Index of the first glyph of minimal attribute (the Python loop starts
from `min_dist = inf`, so the first element always enters). -/
def argminIdx (f : Glyph → ℚ) : List Glyph → ℕ
  | [] => 0
  | g :: rest => argminFrom f 1 0 (f g) rest

theorem argmaxFrom_lt (f : Glyph → ℚ) :
    ∀ (l : List Glyph) (i best : ℕ) (bestV : ℚ), best < i →
      argmaxFrom f i best bestV l < i + l.length := by
  intro l
  induction l with
  | nil => intro i best bestV h; simpa [argmaxFrom] using h.trans_le (Nat.le_refl i)
  | cons g rest ih =>
    intro i best bestV h
    simp only [argmaxFrom, List.length_cons]
    split
    · have := ih (i + 1) i (f g) (Nat.lt_succ_self i)
      omega
    · have := ih (i + 1) best bestV (by omega)
      omega

theorem argminFrom_lt (f : Glyph → ℚ) :
    ∀ (l : List Glyph) (i best : ℕ) (bestV : ℚ), best < i →
      argminFrom f i best bestV l < i + l.length := by
  intro l
  induction l with
  | nil => intro i best bestV h; simpa [argminFrom] using h.trans_le (Nat.le_refl i)
  | cons g rest ih =>
    intro i best bestV h
    simp only [argminFrom, List.length_cons]
    split
    · have := ih (i + 1) i (f g) (Nat.lt_succ_self i)
      omega
    · have := ih (i + 1) best bestV (by omega)
      omega

theorem argmaxIdx_lt (f : Glyph → ℚ) (l : List Glyph) (h : l ≠ []) :
    argmaxIdx f l < l.length := by
  match l with
  | [] => exact absurd rfl h
  | g :: rest =>
    have := argmaxFrom_lt f rest 1 0 (f g) (Nat.zero_lt_one)
    simpa [argmaxIdx, Nat.add_comm] using this

theorem argminIdx_lt (f : Glyph → ℚ) (l : List Glyph) (h : l ≠ []) :
    argminIdx f l < l.length := by
  match l with
  | [] => exact absurd rfl h
  | g :: rest =>
    have := argminFrom_lt f rest 1 0 (f g) (Nat.zero_lt_one)
    simpa [argminIdx, Nat.add_comm] using this

/-- The greedy travelling loop of v7.3 (`while unvisited:`): move to the
unvisited glyph whose center is closest to the current one, emit it, and
repeat.  Termination: each step erases the visited index. -/
def nnLoop (cur : Glyph) (unvisited : List Glyph) : List Glyph :=
  match h : unvisited with
  | [] => []
  | g0 :: rest =>
    let u := g0 :: rest
    let i := argminIdx (fun cand => sqDist cur.center cand.center) u
    let nxt := u.getD i g0
    nxt :: nnLoop nxt (u.eraseIdx i)
termination_by unvisited.length
decreasing_by
  have hi : i < u.length := argminIdx_lt _ u (by simp [u])
  simp only [h, u] at *
  rw [List.length_eraseIdx]
  simp only [hi, if_pos]
  omega

/-- Sequencer `_sort_contours_by_path` of `create_doodle_video_v7_3.py`: start from
the largest-area glyph and follow the greedy nearest-neighbor chain. -/
def sortNearestNeighbor (glyphs : List Glyph) : List Glyph :=
  match glyphs with
  | [] => []
  | g0 :: _ =>
    let s := argmaxIdx (fun g => g.area) glyphs
    let st := glyphs.getD s g0
    st :: nnLoop st (glyphs.eraseIdx s)

/-! ## Path sequencer, strategy 3: big/small split
(`_sort_contours_by_path` of `create_doodle_video_v8_1.py`, lines 52-102) -/

/-- Sequencer `_sort_contours_by_path` of `create_doodle_video_v8_1.py`: glyphs of
area at least 5000 are sorted by descending area first, the remaining small
glyphs follow in reading order (the same line clustering with the v8.1
matching test). -/
def sortContoursByPathV81 (glyphs : List Glyph) : List Glyph :=
  if glyphs.isEmpty then [] else
  let bigObjs := glyphs.filter (fun g => decide (g.area ≥ 5000))
  let smallObjs := glyphs.filter (fun g => !decide (g.area ≥ 5000))
  let bigSorted := insertionSort (fun a b => decide (b.area ≤ a.area)) bigObjs
  bigSorted ++ sortGlyphLines lineMatchV81 smallObjs

/-! ## Section assignment (`generate`, v8 lines 218-228) -/

/-- Horizontal center used by the section split,
`glyph['x'] + glyph['w'] / 2`. -/
def centerX (g : Glyph) : ℚ := g.x + g.w / 2

/-- Section index of a glyph for `n` vertical strips of an image of resized
width `imgW`: `min(int(glyph_center_x / section_width), num_sections - 1)`
with `section_width = new_w / num_sections`.  The result is an integer
because Python `int()` can in principle go negative; with real glyph data
it is a valid section index (proved below). -/
def sectionIdxOf (imgW : ℚ) (n : ℕ) (g : Glyph) : ℤ :=
  min (pyInt (centerX g / (imgW / n))) ((n : ℤ) - 1)

/-- The per-section glyph lists (the `glyph_sections` dict, keyed by the
section index, each list in scan order; a key that was never inserted reads
as the empty list). -/
def buildSections (imgW : ℚ) (n : ℕ) (glyphs : List Glyph) :
    ℤ → List Glyph :=
  fun i => glyphs.filter (fun g => decide (sectionIdxOf imgW n g = i))

/-! ## Rasterization primitives

The mask drawing of `make_frame` goes through two external calls:
`cv2.drawContours(mask, [pts], -1, 255, -1)` (fill the region bounded by
the closed contour, boundary included, even-odd rule) and
`cv2.polylines(mask, [pts], False, 255, thickness)` (an open polyline
painted with a round pen of the given width).  They are modelled from that
documented behaviour over exact rational pixel coordinates: a filled
contour covers the points on its boundary or with an odd crossing number,
and a stroked polyline covers the points within distance `thickness / 2` of
one of its segments. -/

/-- Squared distance from point `p` to the segment `a`-`b` (projection onto
the segment, clamped to it). -/
def sqDistPtSeg (p a b : ℚ × ℚ) : ℚ :=
  let dx := b.1 - a.1
  let dy := b.2 - a.2
  let dd := dx ^ 2 + dy ^ 2
  if dd = 0 then sqDist p a
  else
    let tc := min 1 (max 0 (((p.1 - a.1) * dx + (p.2 - a.2) * dy) / dd))
    sqDist p (a.1 + tc * dx, a.2 + tc * dy)

/-- Consecutive segments of an open polyline; a single point is a
degenerate dot. -/
def polySegs : List (ℚ × ℚ) → List ((ℚ × ℚ) × (ℚ × ℚ))
  | [] => []
  | [a] => [(a, a)]
  | a :: b :: rest => (a, b) :: polySegs (b :: rest)

/-- Edges of a closed polygon: consecutive pairs with wraparound. -/
def closedSegs (pts : List (ℚ × ℚ)) : List ((ℚ × ℚ) × (ℚ × ℚ)) :=
  pts.zip (pts.rotate 1)

/-- A point is covered by a stroked open polyline of width `th` when it is
within distance `th / 2` of one of its segments (round pen). -/
def strokeCovers (pts : List (ℚ × ℚ)) (th : ℚ) (p : ℚ × ℚ) : Bool :=
  (polySegs pts).any (fun e => decide (sqDistPtSeg p e.1 e.2 ≤ (th / 2) ^ 2))

/-- Horizontal-ray crossing test for one polygon edge (even-odd rule):
the edge spans the ray height half-openly and crosses strictly to the
right of `p`. -/
def edgeCrossesRay (p : ℚ × ℚ) (e : (ℚ × ℚ) × (ℚ × ℚ)) : Bool :=
  if e.1.2 = e.2.2 then false
  else
    decide (min e.1.2 e.2.2 ≤ p.2) && decide (p.2 < max e.1.2 e.2.2) &&
      decide (p.1 < e.1.1 + (p.2 - e.1.2) * (e.2.1 - e.1.1) / (e.2.2 - e.1.2))

/-- A point lies on the boundary of the closed polygon. -/
def onBoundary (pts : List (ℚ × ℚ)) (p : ℚ × ℚ) : Bool :=
  (closedSegs pts).any (fun e => decide (sqDistPtSeg p e.1 e.2 = 0))

/-- A filled contour covers its boundary and the points of odd crossing
number. -/
def fillCovers (c : Contour) (p : ℚ × ℚ) : Bool :=
  onBoundary c.pts p ||
    decide ((closedSegs c.pts).countP (edgeCrossesRay p) % 2 = 1)

/-! ## Frame renderer (`make_frame`, v8 lines 265-346) -/

/-- One drawing operation issued on the reveal mask: a filled contour
(`cv2.drawContours(..., -1, 255, -1)`) or a stroked open polyline of the
given thickness (`cv2.polylines(..., False, 255, thickness)`). -/
inductive DrawOp where
  | fill (c : Contour)
  | stroke (pts : List (ℚ × ℚ)) (th : ℚ)
deriving DecidableEq

/-- Pixel coverage of one drawing operation. -/
def opCovers (p : ℚ × ℚ) : DrawOp → Bool
  | .fill c => fillCovers c p
  | .stroke pts th => strokeCovers pts th p

/-- The active-glyph contour loop of `make_frame` (v8 lines 315-339):
contours whose cumulative length stays within the target are drawn filled;
the first contour that overshoots is drawn as a truncated open polyline of
`int((needed / c_len) * num_pts)` points and the loop breaks. -/
def activeGlyphOps (th target : ℚ) : List Contour → ℚ → List DrawOp
  | [], _ => []
  | c :: rest, currentLen =>
    if currentLen + c.len ≤ target then
      .fill c :: activeGlyphOps th target rest (currentLen + c.len)
    else
      -- `needed = target - current_len`, `pts_to_draw = int((needed / c_len) * num_pts)`
      if target - currentLen > 0 ∧ c.len > 0 then
        if 0 < (pyInt (((target - currentLen) / c.len) * c.pts.length)).toNat then
          [.stroke (c.pts.take
            ((pyInt (((target - currentLen) / c.len) * c.pts.length)).toNat)) th]
        else []
      else []

/-- A segment timing record of the `segment_times` list (v8 lines 252-263):
the sequential section index and the start and end times (field `stop`
embeds the Python key `end`, a Lean keyword). -/
structure SegTime where
  sectionIdx : ℕ
  start : ℚ
  stop : ℚ
deriving DecidableEq

/-- Drawing operations one segment contributes to the reveal mask at query
time `t` (v8 lines 279-339): nothing before its start, everything filled
from its end on, and the progressive prefix plus the active glyph in
between. -/
def segGlyphOps (th : ℚ) (gs : List Glyph) (s e t : ℚ) : List DrawOp :=
  if gs.isEmpty then [] else
  if t < s then [] else
  if e ≤ t then gs.flatMap (fun g => g.contours.map .fill) else
  let segProgress := (t - s) / (e - s)
  let curFloat := (gs.length : ℚ) * segProgress
  let curIdx := (pyInt curFloat).toNat
  let completed := (gs.take curIdx).flatMap (fun g => g.contours.map .fill)
  let active :=
    if h : curIdx < gs.length then
      let ag := gs.get ⟨curIdx, h⟩
      activeGlyphOps th (ag.total_len * (curFloat - curIdx)) ag.contours 0
    else []
  completed ++ active

/-- All drawing operations of one frame: every segment of `segment_times`
is visited and contributes independently (a section index missing from the
dict contributes the empty list, exactly like the `continue` guards). -/
def makeFrameOps (th : ℚ) (sections : ℤ → List Glyph)
    (segTimes : List SegTime) (t : ℚ) : List DrawOp :=
  segTimes.flatMap
    (fun st => segGlyphOps th (sections (st.sectionIdx : ℤ)) st.start st.stop t)

/-- The reveal (coverage) mask of `make_frame` at time `t`, as a pixel
predicate: with segments, a pixel is revealed when some drawing operation
covers it; without segments the whole mask is set
(`reveal_mask[:] = 255`, v8 lines 340-341). -/
def revealMask (th : ℚ) (sections : ℤ → List Glyph)
    (segTimes : List SegTime) (t : ℚ) (p : ℚ × ℚ) : Bool :=
  if segTimes.isEmpty then true
  else (makeFrameOps th sections segTimes t).any (opCovers p)

/-- Background color chosen in `generate` and in `make_frame` (black for a
dark background, white otherwise), as a BGR triple. -/
def bgColorOf (isDark : Bool) : ℤ × ℤ × ℤ :=
  if isDark then (0, 0, 0) else (255, 255, 255)

/-- The static reference canvas `full_canvas_ref` (v8 lines 240-249):
background everywhere, except that pixels of the ink map show the resized
source image. -/
def canvasRef (bg : ℤ × ℤ × ℤ) (img : ℚ × ℚ → ℤ × ℤ × ℤ)
    (ink : ℚ × ℚ → Bool) (p : ℚ × ℚ) : ℤ × ℤ × ℤ :=
  if ink p then img p else bg

/-- The color of one output pixel of `make_frame`: the frame starts as the
solid background and revealed pixels copy the reference canvas. -/
def frameColor (th : ℚ) (sections : ℤ → List Glyph) (segTimes : List SegTime)
    (bg : ℤ × ℤ × ℤ) (img : ℚ × ℚ → ℤ × ℤ × ℤ) (ink : ℚ × ℚ → Bool)
    (t : ℚ) (p : ℚ × ℚ) : ℤ × ℤ × ℤ :=
  if revealMask th sections segTimes t p then canvasRef bg img ink p else bg

/-! ## Image normalizer: background classification
(`_get_cleaned_image`, v8 lines 29-32, and `generate`, v8 lines 241-244) -/

/-- Mean luminance of the grayscale image (`np.mean(gray)`), the pixels
given as a flat list. -/
def meanBrightness (gray : List ℚ) : ℚ := gray.sum / gray.length

/-- Background classification, `self.is_dark_bg = (mean_brightness < 127)`. -/
def isDarkBg (gray : List ℚ) : Bool := decide (meanBrightness gray < 127)

/-- The two OpenCV threshold polarities used by `_get_cleaned_image`. -/
inductive ThreshType where
  | binary
  | binaryInv
deriving DecidableEq

/-- Threshold polarity selection,
`thresh_type = cv2.THRESH_BINARY if self.is_dark_bg else cv2.THRESH_BINARY_INV`. -/
def threshTypeOf (isDark : Bool) : ThreshType :=
  if isDark then .binary else .binaryInv

/-! ## Ink extractor (`_get_cleaned_image`, v8 lines 27-49)

The thresholding calls `cv2.threshold(..., OTSU)` and
`cv2.adaptiveThreshold(...)` are external library calls; the embedding
abstracts them as the already-thresholded binary maps `otsuMap` and
`adaptiveMap` and models the repository control flow around them exactly:
which map each style uses and whether a morphological opening follows.  The
2x2 opening itself (`cv2.morphologyEx(binary, MORPH_OPEN,
getStructuringElement(MORPH_RECT, (2, 2)))`) is modelled from the
documented behaviour: erosion then dilation with the 2x2 all-ones
structuring element anchored at its OpenCV default anchor, erosion treating
out-of-image samples as foreground and dilation as background (the OpenCV
border defaults). -/

/-- A single-channel binary image: dimensions and a pixel predicate. -/
structure BinImg where
  w : ℕ
  h : ℕ
  px : ℤ → ℤ → Bool
deriving Inhabited

/-- Bounds test of a pixel coordinate. -/
def BinImg.inB (img : BinImg) (x y : ℤ) : Bool :=
  decide (0 ≤ x) && decide (x < (img.w : ℤ)) &&
    decide (0 ≤ y) && decide (y < (img.h : ℤ))

/-- Erosion by the 2x2 all-ones structuring element: a pixel survives when
every in-image sample of its 2x2 window is foreground. -/
def erode2 (img : BinImg) : BinImg where
  w := img.w
  h := img.h
  px := fun x y =>
    img.inB x y &&
      (([(-1, -1), (-1, 0), (0, -1), (0, 0)] : List (ℤ × ℤ)).all
        (fun d => !img.inB (x + d.1) (y + d.2) || img.px (x + d.1) (y + d.2)))

/-- Dilation by the 2x2 all-ones structuring element: a pixel is set when
some in-image sample of its 2x2 window is foreground. -/
def dilate2 (img : BinImg) : BinImg where
  w := img.w
  h := img.h
  px := fun x y =>
    img.inB x y &&
      (([(0, 0), (0, 1), (1, 0), (1, 1)] : List (ℤ × ℤ)).any
        (fun d => img.inB (x + d.1) (y + d.2) && img.px (x + d.1) (y + d.2)))

/-- Morphological opening with the 2x2 rectangular structuring element
(`cv2.morphologyEx(..., cv2.MORPH_OPEN, ...)`): erosion then dilation. -/
def morphOpen2 (img : BinImg) : BinImg := dilate2 (erode2 img)

/-- The three style selectors of `DoodleVideoGeneratorV8`. -/
inductive Style where
  | normal
  | solid
  | pencil
deriving DecidableEq

/-- Extractor `_get_cleaned_image` of v8 (lines 27-49), with the two thresholded maps
abstracted: the `solid` and `normal` styles return the Otsu map directly
(lines 35-40, `return binary`), and only the `pencil` style applies the
2x2 morphological opening to the adaptive map (lines 42-49). -/
def getCleanedImage (style : Style) (otsuMap adaptiveMap : BinImg) : BinImg :=
  match style with
  | .solid => otsuMap
  | .normal => otsuMap
  | .pencil => morphOpen2 adaptiveMap

/-- The output of the thresholding step alone, per style, as the
specification describes it (adaptive for pencil, Otsu after blur for the
others); used to state the claim that an opening follows the thresholding. -/
def threshOut (style : Style) (otsuMap adaptiveMap : BinImg) : BinImg :=
  match style with
  | .solid => otsuMap
  | .normal => otsuMap
  | .pencil => adaptiveMap

/-! ## External bbox segment assignment
(`_cluster_glyphs_by_bbox` of `create_doodle_video_v6.py`, lines 55-150) -/

/-- Validated metadata of one external segment box (v6 lines 64-89): the
box `[ymin, xmin, ymax, xmax]` arrives on a 0-1000 scale, is converted to
pixels, and is dropped (`None`) when degenerate; otherwise its pixel
rectangle, area and center are cached together with the segment index. -/
structure SegMeta where
  idx : ℕ
  xmin : ℚ
  ymin : ℚ
  xmax : ℚ
  ymax : ℚ
  area : ℚ
  center : ℚ × ℚ
deriving DecidableEq

/-- Build the metadata of the segment at index `i` from its optional bbox. -/
def segMetaOf (width height : ℚ) (i : ℕ) (bbox : Option (ℚ × ℚ × ℚ × ℚ)) :
    Option SegMeta :=
  match bbox with
  | none => none
  | some (bym, bxm, byM, bxM) =>
    let ymin := bym / 1000 * height
    let xmin := bxm / 1000 * width
    let ymax := byM / 1000 * height
    let xmax := bxM / 1000 * width
    if xmax ≤ xmin ∨ ymax ≤ ymin then none
    else
      some { idx := i, xmin := xmin, ymin := ymin, xmax := xmax, ymax := ymax
             area := (ymax - ymin) * (xmax - xmin)
             center := ((xmin + xmax) / 2, (ymin + ymax) / 2) }

/-- Metadata of all segments, indexed in order from `i`. -/
def segMetasFrom (width height : ℚ) :
    ℕ → List (Option (ℚ × ℚ × ℚ × ℚ)) → List (Option SegMeta)
  | _, [] => []
  | i, b :: rest =>
    segMetaOf width height i b :: segMetasFrom width height (i + 1) rest

/-- The `seg_meta` list of `_cluster_glyphs_by_bbox`. -/
def segMetas (width height : ℚ) (segs : List (Option (ℚ × ℚ × ℚ × ℚ))) :
    List (Option SegMeta) :=
  segMetasFrom width height 0 segs

/-- Glyph center used by the bbox assignment: `gx = x + w / 2.0`. -/
def clusterGX (g : Glyph) : ℚ := g.x + g.w / 2

/-- Glyph center used by the bbox assignment: `gy = y + h // 2.0`
(Python floor division). -/
def clusterGY (g : Glyph) : ℚ := g.y + (⌊g.h / 2⌋ : ℤ)

/-- Inclusion test `xmin <= gx <= xmax and ymin <= gy <= ymax`. -/
def metaContains (m : SegMeta) (gx gy : ℚ) : Bool :=
  decide (m.xmin ≤ gx) && decide (gx ≤ m.xmax) &&
    decide (m.ymin ≤ gy) && decide (gy ≤ m.ymax)

/-- The containing-box scan of v6 (lines 99-110): keep the index and area
of the smallest containing box seen so far (strict improvement only, so the
first of equal areas wins; the accumulator `none` embeds
`min_container_area = inf`). -/
def bestContainLoop (gx gy : ℚ) :
    List (Option SegMeta) → Option (ℕ × ℚ) → Option (ℕ × ℚ)
  | [], acc => acc
  | none :: rest, acc => bestContainLoop gx gy rest acc
  | some m :: rest, acc =>
    if metaContains m gx gy then
      match acc with
      | none => bestContainLoop gx gy rest (some (m.idx, m.area))
      | some ba =>
        if m.area < ba.2 then bestContainLoop gx gy rest (some (m.idx, m.area))
        else bestContainLoop gx gy rest acc
    else bestContainLoop gx gy rest acc

/-- The nearest-center scan over the valid metas (v6 lines 130-138).  The
Python loop compares `((gx - cx)**2 + (gy - cy)**2) ** 0.5`; the square
root is strictly monotone on nonnegatives, so comparing the squared
distances selects the same index; the embedding stores the squared
distance. -/
def nearestLoop (gx gy : ℚ) :
    List SegMeta → Option (ℕ × ℚ) → Option (ℕ × ℚ)
  | [], acc => acc
  | m :: rest, acc =>
    match acc with
    | none => nearestLoop gx gy rest (some (m.idx, sqDist (gx, gy) m.center))
    | some ba =>
      if sqDist (gx, gy) m.center < ba.2 then
        nearestLoop gx gy rest (some (m.idx, sqDist (gx, gy) m.center))
      else nearestLoop gx gy rest acc

/-- The segment index `_cluster_glyphs_by_bbox` resolves a glyph to:
smallest containing box, else nearest valid box center, else segment 0. -/
def assignGlyphV6 (metas : List (Option SegMeta)) (g : Glyph) : ℕ :=
  let gx := clusterGX g
  let gy := clusterGY g
  match bestContainLoop gx gy metas none with
  | some ba => ba.1
  | none =>
    match nearestLoop gx gy (metas.filterMap id) none with
    | some ba => ba.1
    | none => 0

/-! ## Derived views of the frame operations -/

/-- The filled contours among a list of drawing operations. -/
def fillsOf (ops : List DrawOp) : List Contour :=
  ops.filterMap (fun op => match op with
    | .fill c => some c
    | .stroke _ _ => none)

/-- The part of the reveal mask contributed by filled contours only
(the partial-polyline strokes of active glyphs removed). -/
def fillMask (th : ℚ) (sections : ℤ → List Glyph)
    (segTimes : List SegTime) (t : ℚ) (p : ℚ × ℚ) : Bool :=
  if segTimes.isEmpty then true
  else (fillsOf (makeFrameOps th sections segTimes t)).any (fun c => fillCovers c p)

/-- Bounding box of a glyph record. -/
structure Box where
  x : ℚ
  y : ℚ
  w : ℚ
  h : ℚ
deriving DecidableEq

/-- The bounding box stored in a glyph record. -/
def boxOf (g : Glyph) : Box := ⟨g.x, g.y, g.w, g.h⟩

/-- Box `A` contains box `B`. -/
def boxContains (A B : Box) : Prop :=
  A.x ≤ B.x ∧ A.y ≤ B.y ∧ B.x + B.w ≤ A.x + A.w ∧ B.y + B.h ≤ A.y + A.h

/-- Box `B` is the minimal axis-aligned box containing every box of `bs`. -/
def isLeastBox (B : Box) (bs : List Box) : Prop :=
  (∀ b ∈ bs, boxContains B b) ∧ ∀ C, (∀ b ∈ bs, boxContains C b) → boxContains C B

/-- Collapse a group of glyphs into one merged unit: the seed absorbs the
rest in order.  The accumulator `current_meta` of `_safely_merge_words`
always has this shape. -/
def collapse (g0 : Glyph) (gs : List Glyph) : Glyph := gs.foldl mergeGlyphs g0

/-- Group-tracking twin of `mergeStep`: the state keeps, instead of the
merged records, the seed glyph and the list of glyphs absorbed into it. -/
def mergeStepG (V Hmin Hmax : ℚ)
    (s : List (Glyph × List Glyph) × (Glyph × List Glyph)) (g : Glyph) :
    List (Glyph × List Glyph) × (Glyph × List Glyph) :=
  let cur := collapse s.2.1 s.2.2
  if vertMatch V cur g && horizMatch Hmin Hmax cur g then
    (s.1, (s.2.1, s.2.2 ++ [g]))
  else
    (s.1 ++ [s.2], (g, []))

/-- A 6x6 binary map holding a single foreground pixel at (3, 3); a
legitimate Otsu output (an image with one bright pixel on a uniform
background thresholds to it). -/
def loneDotImg : BinImg := ⟨6, 6, fun x y => decide (x = 3) && decide (y = 3)⟩

/-! # Theorems

General-purpose helper lemmas first, then the per-claim theorems. -/

theorem insertSorted_perm {α : Type} (le : α → α → Bool) (x : α) :
    ∀ l : List α, List.Perm (insertSorted le x l) (x :: l) := by
  intro l
  induction l with
  | nil => simp [insertSorted]
  | cons y ys ih =>
    by_cases h : le x y
    · simp [insertSorted, h]
    · simpa [insertSorted, h] using (ih.cons y).trans (List.Perm.swap x y ys)

theorem insertionSort_perm {α : Type} (le : α → α → Bool) :
    ∀ l : List α, List.Perm (insertionSort le l) l := by
  intro l
  induction l with
  | nil => simp [insertionSort]
  | cons x xs ih =>
    exact (insertSorted_perm le x (insertionSort le xs)).trans (ih.cons x)

theorem perm_flatMap {α β : Type} (f : α → List β) {l₁ l₂ : List α}
    (h : List.Perm l₁ l₂) : List.Perm (l₁.flatMap f) (l₂.flatMap f) := by
  induction h with
  | nil => simp
  | cons x _ ih => simpa [List.flatMap_cons] using ih.append_left (f x)
  | swap x y l =>
    simp only [List.flatMap_cons, ← List.append_assoc]
    exact List.perm_append_comm.append_right _
  | trans _ _ ih1 ih2 => exact ih1.trans ih2

theorem perm_flatMap_congr {α β : Type} {f g : α → List β} :
    ∀ (L : List α), (∀ x ∈ L, List.Perm (f x) (g x)) →
      List.Perm (L.flatMap f) (L.flatMap g) := by
  intro L
  induction L with
  | nil => intro _; simp
  | cons x xs ih =>
    intro h
    simp only [List.flatMap_cons]
    exact (h x (by simp)).append (ih (fun y hy => h y (by simp [hy])))

theorem count_flatMap {α β : Type} [DecidableEq β] (f : α → List β)
    (L : List α) (a : β) :
    (L.flatMap f).count a = (L.map (fun b => (f b).count a)).sum := by
  induction L with
  | nil => simp
  | cons x xs ih => simp [List.flatMap_cons, List.count_append, ih]

theorem count_filter_decide {α : Type} [DecidableEq α] (p : α → Bool)
    (l : List α) (a : α) :
    (l.filter p).count a = if p a then l.count a else 0 := by
  induction l with
  | nil => simp
  | cons x xs ih =>
    by_cases hx : x = a
    · subst hx
      by_cases hp : p x
      · simp [List.filter_cons, hp, List.count_cons, ih]
      · simp [List.filter_cons, hp, List.count_cons, ih]
    · by_cases hp : p x
      · simp [List.filter_cons, hp, List.count_cons, hx, ih]
      · simp [List.filter_cons, hp, List.count_cons, hx, ih]

theorem perm_get_cons_eraseIdx {α : Type} :
    ∀ (l : List α) (i : ℕ) (h : i < l.length),
      List.Perm (l.get ⟨i, h⟩ :: l.eraseIdx i) l := by
  intro l
  induction l with
  | nil => intro i h; simp at h
  | cons x xs ih =>
    intro i h
    match i with
    | 0 => simp [List.eraseIdx]
    | j + 1 =>
      have hj : j < xs.length := by simpa using h
      have step : List.Perm (xs.get ⟨j, hj⟩ :: x :: xs.eraseIdx j)
          (x :: xs.get ⟨j, hj⟩ :: xs.eraseIdx j) := List.Perm.swap x _ _
      simpa [List.eraseIdx] using step.trans ((ih j hj).cons x)

theorem pyInt_of_nonneg {q : ℚ} (h : 0 ≤ q) : pyInt q = ⌊q⌋ := by
  simp [pyInt, not_lt.mpr h]

theorem sum_ite_count (k : ℤ) (c : ℕ) :
    ∀ n : ℕ, ((List.range n).map (fun i : ℕ => if k = (i : ℤ) then c else 0)).sum
      = if 0 ≤ k ∧ k < n then c else 0 := by
  intro n
  induction n with
  | zero =>
    simp only [List.range_zero, List.map_nil, List.sum_nil, Nat.cast_zero]
    split_ifs <;> omega
  | succ n ih =>
    rw [List.range_succ, List.map_append, List.sum_append, ih]
    simp only [List.map_cons, List.map_nil, List.sum_cons, List.sum_nil]
    push_cast
    split_ifs <;> omega

theorem partition_by_key_perm {α : Type} [DecidableEq α] (key : α → ℤ)
    (n : ℕ) (l : List α) (hk : ∀ x ∈ l, 0 ≤ key x ∧ key x < n) :
    List.Perm
      ((List.range n).flatMap (fun i => l.filter (fun x => decide (key x = (i : ℤ)))))
      l := by
  rw [List.perm_iff_count]
  intro a
  rw [count_flatMap]
  have hfc : ∀ i : ℕ,
      (l.filter (fun x => decide (key x = (i : ℤ)))).count a
        = if key a = (i : ℤ) then l.count a else 0 := by
    intro i
    rw [count_filter_decide]
    by_cases h : key a = (i : ℤ) <;> simp [h]
  simp only [hfc]
  rw [sum_ite_count]
  by_cases ha : a ∈ l
  · simp [hk a ha]
  · have : l.count a = 0 := List.count_eq_zero.mpr ha
    simp [this]

/-! ## Claim C9: equal-width vertical-strip section assignment -/

/-- Claim C9: with `n ≥ 1` timed segments, every glyph (nonnegative
horizontal center, positive resized width) receives the section index
`min(int(center_x / (image_width / n)), n - 1)`, which is always a valid
index in `[0, n-1]`; a center on or beyond the right image edge clamps to
the last section; and splitting the glyph list by that index is a
partition (the sections together hold exactly the input glyphs). -/
theorem section_split_total (imgW : ℚ) (n : ℕ) (glyphs : List Glyph)
    (hn : 1 ≤ n) (hw : 0 < imgW) (hg : ∀ g ∈ glyphs, 0 ≤ centerX g) :
    (∀ g ∈ glyphs, 0 ≤ sectionIdxOf imgW n g ∧ sectionIdxOf imgW n g < n) ∧
    (∀ g ∈ glyphs, imgW ≤ centerX g → sectionIdxOf imgW n g = (n : ℤ) - 1) ∧
    List.Perm ((List.range n).flatMap (fun i => buildSections imgW n glyphs (i : ℤ)))
      glyphs := by
  have hnQ : (0 : ℚ) < n := by
    have : (0 : ℕ) < n := lt_of_lt_of_le Nat.zero_lt_one hn
    exact_mod_cast this
  have hsw : 0 < imgW / n := div_pos hw hnQ
  have hbounds : ∀ g ∈ glyphs,
      0 ≤ sectionIdxOf imgW n g ∧ sectionIdxOf imgW n g < n := by
    intro g hgm
    have hq : 0 ≤ centerX g / (imgW / n) := div_nonneg (hg g hgm) hsw.le
    have hpy : pyInt (centerX g / (imgW / n)) = ⌊centerX g / (imgW / n)⌋ :=
      pyInt_of_nonneg hq
    constructor
    · refine le_min ?_ (by omega)
      rw [hpy]
      exact Int.floor_nonneg.mpr hq
    · exact lt_of_le_of_lt (min_le_right _ _) (by omega)
  refine ⟨hbounds, ?_, ?_⟩
  · intro g hgm hge
    have hq : (n : ℚ) ≤ centerX g / (imgW / n) := by
      rw [div_div_eq_mul_div, le_div_iff hw]
      calc (n : ℚ) * imgW = imgW * n := by ring
        _ ≤ centerX g * n := mul_le_mul_of_nonneg_right hge hnQ.le
    have hq0 : 0 ≤ centerX g / (imgW / n) := le_trans hnQ.le hq
    have hfl : (n : ℤ) ≤ ⌊centerX g / (imgW / n)⌋ := Int.le_floor.mpr (by exact_mod_cast hq)
    rw [sectionIdxOf, pyInt_of_nonneg hq0]
    omega
  · exact partition_by_key_perm (sectionIdxOf imgW n) n glyphs hbounds

/-- Witness for C9 at a 200-wide image split into two sections, holding one
glyph per half plus one glyph centered beyond the right edge. -/
theorem section_split_total_witness :
    (∀ g ∈ ([⟨10, 0, 20, 5, 50, [], 0, (20, 2)⟩,
        ⟨150, 0, 20, 5, 50, [], 0, (160, 2)⟩,
        ⟨195, 0, 20, 5, 50, [], 0, (205, 2)⟩] : List Glyph),
      0 ≤ sectionIdxOf 200 2 g ∧ sectionIdxOf 200 2 g < 2) ∧
    (∀ g ∈ ([⟨10, 0, 20, 5, 50, [], 0, (20, 2)⟩,
        ⟨150, 0, 20, 5, 50, [], 0, (160, 2)⟩,
        ⟨195, 0, 20, 5, 50, [], 0, (205, 2)⟩] : List Glyph),
      200 ≤ centerX g → sectionIdxOf 200 2 g = (2 : ℤ) - 1) ∧
    List.Perm ((List.range 2).flatMap
      (fun i => buildSections 200 2
        [⟨10, 0, 20, 5, 50, [], 0, (20, 2)⟩,
         ⟨150, 0, 20, 5, 50, [], 0, (160, 2)⟩,
         ⟨195, 0, 20, 5, 50, [], 0, (205, 2)⟩] (i : ℤ)))
      [⟨10, 0, 20, 5, 50, [], 0, (20, 2)⟩,
       ⟨150, 0, 20, 5, 50, [], 0, (160, 2)⟩,
       ⟨195, 0, 20, 5, 50, [], 0, (205, 2)⟩] :=
  section_split_total 200 2 _ (by norm_num) (by norm_num)
    (by intro g hgm; fin_cases hgm <;> norm_num [centerX])

theorem fillsOf_append (a b : List DrawOp) :
    fillsOf (a ++ b) = fillsOf a ++ fillsOf b := by
  simp [fillsOf]

theorem fillsOf_map_fill (cs : List Contour) : fillsOf (cs.map .fill) = cs := by
  induction cs with
  | nil => rfl
  | cons c rest ih => simp [fillsOf, List.filterMap_cons] at ih ⊢; exact ih

theorem fillsOf_flatMap_fill (gs : List Glyph) :
    fillsOf (gs.flatMap (fun g => g.contours.map .fill))
      = gs.flatMap (fun g => g.contours) := by
  induction gs with
  | nil => rfl
  | cons g rest ih =>
    simp only [List.flatMap_cons, fillsOf_append, ih, fillsOf_map_fill]

theorem mem_fillsOf_active_sub (th target : ℚ) :
    ∀ (cs : List Contour) (cur : ℚ) (c : Contour),
      c ∈ fillsOf (activeGlyphOps th target cs cur) → c ∈ cs := by
  intro cs
  induction cs with
  | nil => intro cur c hc; simp [activeGlyphOps, fillsOf] at hc
  | cons c0 rest ih =>
    intro cur c hc
    rw [activeGlyphOps] at hc
    split at hc
    · simp only [fillsOf, List.filterMap_cons] at hc
      rcases List.mem_cons.mp hc with h | h
      · exact h ▸ List.mem_cons_self c0 rest
      · exact List.mem_cons_of_mem c0 (ih _ c h)
    · split at hc
      · split at hc <;> simp [fillsOf] at hc
      · simp [fillsOf] at hc

theorem mem_fillsOf_segGlyphOps (th s e t : ℚ) (gs : List Glyph) (c : Contour) :
    c ∈ fillsOf (segGlyphOps th gs s e t) → ∃ g ∈ gs, c ∈ g.contours := by
  intro hc
  unfold segGlyphOps at hc
  split at hc
  · simp [fillsOf] at hc
  · split at hc
    · simp [fillsOf] at hc
    · split at hc
      · rw [fillsOf_flatMap_fill] at hc
        exact List.mem_flatMap.mp hc
      · simp only [fillsOf_append, List.mem_append] at hc
        rcases hc with h | h
        · rw [fillsOf_flatMap_fill] at h
          obtain ⟨g, hg, hcg⟩ := List.mem_flatMap.mp h
          exact ⟨g, List.take_subset _ _ hg, hcg⟩
        · split at h
          · rename_i hidx
            exact ⟨_, List.get_mem gs _ hidx, mem_fillsOf_active_sub _ _ _ _ _ h⟩
          · simp [fillsOf] at h

theorem addToLines_flatten_perm (lm : Glyph → List Glyph → Bool) (g : Glyph) :
    ∀ ls : List (List Glyph),
      List.Perm (addToLines lm g ls).flatten (g :: ls.flatten) := by
  intro ls
  induction ls with
  | nil => simp [addToLines]
  | cons line rest ih =>
    by_cases h : lm g line
    · simp only [addToLines, h, if_true, List.flatten_cons]
      simpa using (List.perm_append_singleton g line).append_right rest.flatten
    · simp only [addToLines, h, if_false, List.flatten_cons]
      exact (List.Perm.append_left line ih).trans List.perm_middle

theorem clusterFold_flatten_perm (lm : Glyph → List Glyph → Bool) :
    ∀ (gs : List Glyph) (ls : List (List Glyph)),
      List.Perm (gs.foldl (fun ls g => addToLines lm g ls) ls).flatten
        (gs ++ ls.flatten) := by
  intro gs
  induction gs with
  | nil => intro ls; simp
  | cons g rest ih =>
    intro ls
    simp only [List.foldl_cons, List.cons_append]
    exact ((ih _).trans
      (List.Perm.append_left rest (addToLines_flatten_perm lm g ls))).trans
      List.perm_middle

theorem flatten_map_insertionSort_perm (le : Glyph → Glyph → Bool) :
    ∀ lines : List (List Glyph),
      List.Perm (lines.map (fun l => insertionSort le l)).flatten lines.flatten := by
  intro lines
  induction lines with
  | nil => simp
  | cons line rest ih =>
    simp only [List.map_cons, List.flatten_cons]
    exact (insertionSort_perm le line).append ih

theorem sortGlyphLines_perm (lm : Glyph → List Glyph → Bool) (glyphs : List Glyph) :
    List.Perm (sortGlyphLines lm glyphs) glyphs := by
  unfold sortGlyphLines
  refine ((flatten_map_insertionSort_perm _ _).trans ?_)
  refine ((insertionSort_perm _ _).flatten.trans ?_)
  refine (clusterFold_flatten_perm lm _ []).trans ?_
  simpa using insertionSort_perm (fun a b => decide (a.y ≤ b.y)) glyphs

theorem nnLoop_perm :
    ∀ (n : ℕ) (u : List Glyph), u.length = n → ∀ cur : Glyph,
      List.Perm (nnLoop cur u) u := by
  intro n
  induction n using Nat.strong_induction_on with
  | _ n ih =>
    intro u hlen cur
    match u with
    | [] => simp [nnLoop]
    | g0 :: rest =>
      rw [nnLoop]
      have hi : argminIdx (fun cand => sqDist cur.center cand.center) (g0 :: rest)
          < (g0 :: rest).length :=
        argminIdx_lt _ _ (by simp)
      have hgetD : (g0 :: rest).getD
          (argminIdx (fun cand => sqDist cur.center cand.center) (g0 :: rest)) g0
          = (g0 :: rest).get ⟨_, hi⟩ := by
        simp [List.getD, List.getElem?_eq_getElem hi]
      rw [hgetD]
      have hlt : ((g0 :: rest).eraseIdx
          (argminIdx (fun cand => sqDist cur.center cand.center) (g0 :: rest))).length < n := by
        rw [List.length_eraseIdx]
        simp only [hi, if_pos]
        omega
      exact (List.Perm.cons _ (ih _ hlt _ rfl _)).trans (perm_get_cons_eraseIdx _ _ hi)

theorem sortNearestNeighbor_perm (glyphs : List Glyph) :
    List.Perm (sortNearestNeighbor glyphs) glyphs := by
  match glyphs with
  | [] => simp [sortNearestNeighbor]
  | g0 :: rest =>
    rw [sortNearestNeighbor]
    have hs : argmaxIdx (fun g => g.area) (g0 :: rest) < (g0 :: rest).length :=
      argmaxIdx_lt _ _ (by simp)
    have hgetD : (g0 :: rest).getD (argmaxIdx (fun g => g.area) (g0 :: rest)) g0
        = (g0 :: rest).get ⟨_, hs⟩ := by
      simp [List.getD, List.getElem?_eq_getElem hs]
    rw [hgetD]
    exact (List.Perm.cons _ (nnLoop_perm _ _ rfl _)).trans
      (perm_get_cons_eraseIdx _ _ hs)

theorem collapse_append_singleton (g0 : Glyph) (l : List Glyph) (g : Glyph) :
    collapse g0 (l ++ [g]) = mergeGlyphs (collapse g0 l) g := by
  simp [collapse, List.foldl_append]

theorem collapse_additive (f : Glyph → ℚ)
    (hf : ∀ a b, f (mergeGlyphs a b) = f a + f b) :
    ∀ (gs : List Glyph) (g0 : Glyph),
      f (collapse g0 gs) = f g0 + (gs.map f).sum := by
  intro gs
  induction gs with
  | nil => intro g0; simp [collapse]
  | cons g rest ih =>
    intro g0
    have : collapse g0 (g :: rest) = collapse (mergeGlyphs g0 g) rest := rfl
    rw [this, ih, hf, List.map_cons, List.sum_cons]
    ring

theorem collapse_contours :
    ∀ (gs : List Glyph) (g0 : Glyph),
      (collapse g0 gs).contours
        = g0.contours ++ gs.flatMap (fun g => g.contours) := by
  intro gs
  induction gs with
  | nil => intro g0; simp [collapse]
  | cons g rest ih =>
    intro g0
    have : collapse g0 (g :: rest) = collapse (mergeGlyphs g0 g) rest := rfl
    rw [this, ih]
    simp [mergeGlyphs, List.flatMap_cons]

theorem mergeFold_groups (V Hmin Hmax : ℚ) :
    ∀ (rest : List Glyph) (done : List (Glyph × List Glyph))
      (cg : Glyph × List Glyph),
      rest.foldl (mergeStep V Hmin Hmax)
        (done.map (fun p => collapse p.1 p.2), collapse cg.1 cg.2)
      = ((rest.foldl (mergeStepG V Hmin Hmax) (done, cg)).1.map
          (fun p => collapse p.1 p.2),
         collapse (rest.foldl (mergeStepG V Hmin Hmax) (done, cg)).2.1
           (rest.foldl (mergeStepG V Hmin Hmax) (done, cg)).2.2) := by
  intro rest
  induction rest with
  | nil => intro done cg; rfl
  | cons g rs ih =>
    intro done cg
    simp only [List.foldl_cons]
    by_cases hm : (vertMatch V (collapse cg.1 cg.2) g
        && horizMatch Hmin Hmax (collapse cg.1 cg.2) g) = true
    · have hstep : mergeStep V Hmin Hmax
          (done.map (fun p => collapse p.1 p.2), collapse cg.1 cg.2) g
          = (done.map (fun p => collapse p.1 p.2),
             collapse cg.1 (cg.2 ++ [g])) := by
        simp [mergeStep, hm, collapse_append_singleton]
      have hstepG : mergeStepG V Hmin Hmax (done, cg) g = (done, (cg.1, cg.2 ++ [g])) := by
        simp [mergeStepG, hm]
      rw [hstep, hstepG]
      exact ih done (cg.1, cg.2 ++ [g])
    · have hstep : mergeStep V Hmin Hmax
          (done.map (fun p => collapse p.1 p.2), collapse cg.1 cg.2) g
          = (done.map (fun p => collapse p.1 p.2) ++ [collapse cg.1 cg.2], g) := by
        simp [mergeStep, hm]
      have hstepG : mergeStepG V Hmin Hmax (done, cg) g = (done ++ [cg], (g, [])) := by
        simp [mergeStepG, hm]
      rw [hstep, hstepG]
      have : (done.map (fun p => collapse p.1 p.2) ++ [collapse cg.1 cg.2], g)
          = ((done ++ [cg]).map (fun p => collapse p.1 p.2), collapse g []) := by
        simp [collapse]
      rw [this]
      exact ih (done ++ [cg]) (g, [])

theorem mergeFoldG_flatten (V Hmin Hmax : ℚ) :
    ∀ (rest : List Glyph) (done : List (Glyph × List Glyph))
      (cg : Glyph × List Glyph),
      ((rest.foldl (mergeStepG V Hmin Hmax) (done, cg)).1.flatMap
          (fun p => p.1 :: p.2))
        ++ ((rest.foldl (mergeStepG V Hmin Hmax) (done, cg)).2.1
            :: (rest.foldl (mergeStepG V Hmin Hmax) (done, cg)).2.2)
      = (done.flatMap (fun p => p.1 :: p.2)) ++ (cg.1 :: cg.2) ++ rest := by
  intro rest
  induction rest with
  | nil => intro done cg; simp
  | cons g rs ih =>
    intro done cg
    simp only [List.foldl_cons]
    by_cases hm : (vertMatch V (collapse cg.1 cg.2) g
        && horizMatch Hmin Hmax (collapse cg.1 cg.2) g) = true
    · have hstepG : mergeStepG V Hmin Hmax (done, cg) g = (done, (cg.1, cg.2 ++ [g])) := by
        simp [mergeStepG, hm]
      rw [hstepG, ih done (cg.1, cg.2 ++ [g])]
      simp
    · have hstepG : mergeStepG V Hmin Hmax (done, cg) g = (done ++ [cg], (g, [])) := by
        simp [mergeStepG, hm]
      rw [hstepG, ih (done ++ [cg]) (g, [])]
      simp

/-- Structure theorem for `_safely_merge_words`: the output is the ordered
list of collapsed groups followed by the bypassed large glyphs, and the
groups partition the merge candidates. -/
theorem safelyMergeWords_groups (aT V Hmin Hmax : ℚ) (glyphs : List Glyph) :
    ∃ groups : List (Glyph × List Glyph),
      safelyMergeWords aT V Hmin Hmax glyphs
        = groups.map (fun p => collapse p.1 p.2)
          ++ glyphs.filter (fun g => !decide (g.area < aT)) ∧
      List.Perm (groups.flatMap (fun p => p.1 :: p.2))
        (glyphs.filter (fun g => decide (g.area < aT))) := by
  unfold safelyMergeWords
  split
  · rename_i hempty
    refine ⟨[], ?_, ?_⟩ <;> simp_all [List.isEmpty_iff]
  · split
    · rename_i hcand
      refine ⟨[], by simp, ?_⟩
      rw [List.isEmpty_iff] at hcand
      simp [hcand]
    · rename_i hcand
      split
      · rename_i hsort
        exfalso
        have := (insertionSort_perm yxLe
          (glyphs.filter (fun g => decide (g.area < aT)))).symm
        rw [hsort] at this
        rw [List.isEmpty_iff] at hcand
        exact hcand this.eq_nil
      · rename_i c0 rest hsort
        refine ⟨(rest.foldl (mergeStepG V Hmin Hmax) ([], (c0, []))).1
          ++ [(rest.foldl (mergeStepG V Hmin Hmax) ([], (c0, []))).2], ?_, ?_⟩
        · have hcorr := mergeFold_groups V Hmin Hmax rest [] (c0, [])
          simp only [List.map_nil, collapse, List.foldl_nil] at hcorr
          rw [hcorr]
          simp [collapse]
        · have hflat := mergeFoldG_flatten V Hmin Hmax rest [] (c0, [])
          simp only [List.flatMap_nil, List.nil_append] at hflat
          rw [List.flatMap_append]
          simp only [List.flatMap_cons, List.flatMap_nil, List.append_nil]
          rw [hflat]
          have hp : List.Perm (c0 :: rest)
              (glyphs.filter (fun g => decide (g.area < aT))) := by
            rw [← hsort]
            exact insertionSort_perm _ _
          simpa using hp

theorem boxContains_refl (B : Box) : boxContains B B := by
  simp [boxContains]

theorem boxContains_trans {A B C : Box}
    (h1 : boxContains A B) (h2 : boxContains B C) : boxContains A C := by
  obtain ⟨a1, a2, a3, a4⟩ := h1
  obtain ⟨b1, b2, b3, b4⟩ := h2
  exact ⟨le_trans a1 b1, le_trans a2 b2, le_trans b3 a3, le_trans b4 a4⟩

theorem mergeGlyphs_box (a g : Glyph) :
    boxContains (boxOf (mergeGlyphs a g)) (boxOf a) ∧
    boxContains (boxOf (mergeGlyphs a g)) (boxOf g) ∧
    (∀ C : Box, boxContains C (boxOf a) → boxContains C (boxOf g) →
      boxContains C (boxOf (mergeGlyphs a g))) := by
  refine ⟨⟨?_, ?_, ?_, ?_⟩, ⟨?_, ?_, ?_, ?_⟩, ?_⟩
  · exact min_le_left _ _
  · exact min_le_left _ _
  · simp only [mergeGlyphs, boxOf]
    rw [add_sub_cancel]
    exact le_max_left _ _
  · simp only [mergeGlyphs, boxOf]
    rw [add_sub_cancel]
    exact le_max_left _ _
  · exact min_le_right _ _
  · exact min_le_right _ _
  · simp only [mergeGlyphs, boxOf]
    rw [add_sub_cancel]
    exact le_max_right _ _
  · simp only [mergeGlyphs, boxOf]
    rw [add_sub_cancel]
    exact le_max_right _ _
  · rintro C ⟨c1, c2, c3, c4⟩ ⟨d1, d2, d3, d4⟩
    refine ⟨le_min c1 d1, le_min c2 d2, ?_, ?_⟩ <;>
      · simp only [mergeGlyphs, boxOf]
        rw [add_sub_cancel]
        exact max_le (by assumption) (by assumption)

theorem collapse_isLeastBox :
    ∀ (gs : List Glyph) (g0 : Glyph),
      isLeastBox (boxOf (collapse g0 gs)) (boxOf g0 :: gs.map boxOf) := by
  intro gs
  induction gs with
  | nil =>
    intro g0
    constructor
    · intro b hb
      simp only [List.map_nil, List.mem_singleton] at hb
      subst hb
      exact boxContains_refl _
    · intro C hC
      exact hC _ (by simp [collapse])
  | cons g rest ih =>
    intro g0
    have hcoll : collapse g0 (g :: rest) = collapse (mergeGlyphs g0 g) rest := rfl
    obtain ⟨hm1, hm2, hm3⟩ := mergeGlyphs_box g0 g
    obtain ⟨ih1, ih2⟩ := ih (mergeGlyphs g0 g)
    constructor
    · intro b hb
      rcases List.mem_cons.mp hb with h | hb2
      · subst h
        rw [hcoll]
        exact boxContains_trans (ih1 _ (by simp)) hm1
      · rcases List.mem_cons.mp hb2 with h | hb3
        · subst h
          rw [hcoll]
          exact boxContains_trans (ih1 _ (by simp)) hm2
        · rw [hcoll]
          exact ih1 _ (by simp [hb3])
    · intro C hC
      rw [hcoll]
      refine ih2 C ?_
      intro b hb
      rcases List.mem_cons.mp hb with h | hb2
      · subst h
        exact hm3 C (hC _ (by simp)) (hC _ (by simp))
      · exact hC _ (by simp [hb2])

theorem flatMap_flatMap {α β γ : Type} (f : α → List β) (g : β → List γ) :
    ∀ L : List α, (L.flatMap f).flatMap g = L.flatMap (fun x => (f x).flatMap g) := by
  intro L
  induction L with
  | nil => rfl
  | cons x xs ih => simp [List.flatMap_cons, List.flatMap_append, ih]

theorem map_collapse_flatMap_contours :
    ∀ groups : List (Glyph × List Glyph),
      (groups.map (fun p => collapse p.1 p.2)).flatMap (fun g => g.contours)
        = (groups.flatMap (fun p => p.1 :: p.2)).flatMap (fun g => g.contours) := by
  intro groups
  induction groups with
  | nil => rfl
  | cons p ps ih =>
    simp only [List.map_cons, List.flatMap_cons, List.flatMap_append,
      collapse_contours, ih, List.append_assoc]

theorem map_collapse_sum (f : Glyph → ℚ)
    (hf : ∀ a b, f (mergeGlyphs a b) = f a + f b) :
    ∀ groups : List (Glyph × List Glyph),
      ((groups.map (fun p => collapse p.1 p.2)).map f).sum
        = ((groups.flatMap (fun p => p.1 :: p.2)).map f).sum := by
  intro groups
  induction groups with
  | nil => rfl
  | cons p ps ih =>
    simp only [List.map_cons, List.sum_cons, List.flatMap_cons, List.map_append,
      List.sum_append, collapse_additive f hf, ih]

theorem safelyMergeWords_contours_perm (aT V Hmin Hmax : ℚ) (glyphs : List Glyph) :
    List.Perm
      ((safelyMergeWords aT V Hmin Hmax glyphs).flatMap (fun g => g.contours))
      (glyphs.flatMap (fun g => g.contours)) := by
  obtain ⟨groups, hout, hperm⟩ := safelyMergeWords_groups aT V Hmin Hmax glyphs
  rw [hout, List.flatMap_append]
  rw [map_collapse_flatMap_contours]
  have h3 := perm_flatMap (fun g => g.contours) hperm
  have h4 : List.Perm
      ((glyphs.filter (fun g => decide (g.area < aT))
        ++ glyphs.filter (fun g => !decide (g.area < aT))).flatMap (fun g => g.contours))
      (glyphs.flatMap (fun g => g.contours)) :=
    perm_flatMap _ (List.filter_append_perm _ glyphs)
  rw [List.flatMap_append] at h4
  exact (h3.append (List.Perm.refl _)).trans h4

theorem safelyMergeWords_sum (f : Glyph → ℚ)
    (hf : ∀ a b, f (mergeGlyphs a b) = f a + f b) (aT V Hmin Hmax : ℚ)
    (glyphs : List Glyph) :
    ((safelyMergeWords aT V Hmin Hmax glyphs).map f).sum = (glyphs.map f).sum := by
  obtain ⟨groups, hout, hperm⟩ := safelyMergeWords_groups aT V Hmin Hmax glyphs
  rw [hout, List.map_append, List.sum_append]
  rw [map_collapse_sum f hf, (hperm.map f).sum_eq]
  have h3 := ((List.filter_append_perm (fun g => decide (g.area < aT)) glyphs).map f).sum_eq
  rw [List.map_append, List.sum_append] at h3
  exact h3

/-! ## Claim C10: the word merge conserves ink totals and unions boxes -/

/-- Claim C10: `_safely_merge_words` conserves the total `area`, the total
`total_len` and the multiset of contours, and the output is the bypassed
glyphs plus collapsed groups of candidates, each collapsed unit carrying
the minimal axis-aligned bounding box of all glyphs absorbed into it. -/
theorem word_merge_conserves (aT V Hmin Hmax : ℚ) (glyphs : List Glyph) :
    ((safelyMergeWords aT V Hmin Hmax glyphs).map (fun g => g.area)).sum
      = (glyphs.map (fun g => g.area)).sum ∧
    ((safelyMergeWords aT V Hmin Hmax glyphs).map (fun g => g.total_len)).sum
      = (glyphs.map (fun g => g.total_len)).sum ∧
    List.Perm
      ((safelyMergeWords aT V Hmin Hmax glyphs).flatMap (fun g => g.contours))
      (glyphs.flatMap (fun g => g.contours)) ∧
    ∃ groups : List (Glyph × List Glyph),
      safelyMergeWords aT V Hmin Hmax glyphs
        = groups.map (fun p => collapse p.1 p.2)
          ++ glyphs.filter (fun g => !decide (g.area < aT)) ∧
      List.Perm (groups.flatMap (fun p => p.1 :: p.2))
        (glyphs.filter (fun g => decide (g.area < aT))) ∧
      ∀ p ∈ groups,
        isLeastBox (boxOf (collapse p.1 p.2)) (boxOf p.1 :: p.2.map boxOf) := by
  obtain ⟨groups, hout, hperm⟩ := safelyMergeWords_groups aT V Hmin Hmax glyphs
  exact ⟨safelyMergeWords_sum _ (fun a b => rfl) aT V Hmin Hmax glyphs,
    safelyMergeWords_sum _ (fun a b => rfl) aT V Hmin Hmax glyphs,
    safelyMergeWords_contours_perm aT V Hmin Hmax glyphs,
    groups, hout, hperm, fun p _ => collapse_isLeastBox p.2 p.1⟩

/-! ## Claim C2: every sequencing strategy is a permutation -/

/-- Claim C2: the three path-sequencing strategies (v8 reading-order line
clustering, v7.3 nearest-neighbor pen simulation, v8.1 big/small split)
each return a permutation of their input — no unit duplicated or dropped —
and consequently the glyph contours drawn across all sections of the v8
pipeline (section split, word merge, path sort) are exactly the contours
of the detected glyphs. -/
theorem sequencers_permutation :
    (∀ gs : List Glyph, List.Perm (sortContoursByPathV8 gs) gs) ∧
    (∀ gs : List Glyph, List.Perm (sortNearestNeighbor gs) gs) ∧
    (∀ gs : List Glyph, List.Perm (sortContoursByPathV81 gs) gs) ∧
    (∀ (imgW : ℚ) (n : ℕ) (glyphs : List Glyph), 1 ≤ n → 0 < imgW →
      (∀ g ∈ glyphs, 0 ≤ centerX g) →
      List.Perm
        ((List.range n).flatMap (fun i =>
          (sortContoursByPathV8
            (safelyMergeWordsV8 (buildSections imgW n glyphs (i : ℤ)))).flatMap
            (fun g => g.contours)))
        (glyphs.flatMap (fun g => g.contours))) := by
  have hv8 : ∀ gs : List Glyph, List.Perm (sortContoursByPathV8 gs) gs := by
    intro gs
    unfold sortContoursByPathV8
    split
    · rename_i h
      rw [List.isEmpty_iff] at h
      simp [h]
    · exact sortGlyphLines_perm lineMatchV8 gs
  refine ⟨hv8, sortNearestNeighbor_perm, ?_, ?_⟩
  · intro gs
    unfold sortContoursByPathV81
    split
    · rename_i h
      rw [List.isEmpty_iff] at h
      simp [h]
    · exact ((insertionSort_perm _ _).append
        (sortGlyphLines_perm lineMatchV81 _)).trans
        (List.filter_append_perm _ gs)
  · intro imgW n glyphs hn hw hg
    have hpart := (section_split_total imgW n glyphs hn hw hg).2.2
    have hsec : ∀ i ∈ List.range n,
        List.Perm
          ((sortContoursByPathV8
            (safelyMergeWordsV8 (buildSections imgW n glyphs (i : ℤ)))).flatMap
            (fun g => g.contours))
          ((buildSections imgW n glyphs (i : ℤ)).flatMap (fun g => g.contours)) := by
      intro i _
      exact (perm_flatMap (fun g => g.contours) (hv8 _)).trans
        (safelyMergeWords_contours_perm 10000 0.7 0.5 1.2 _)
    refine (perm_flatMap_congr _ hsec).trans ?_
    rw [← flatMap_flatMap (fun i : ℕ => buildSections imgW n glyphs (i : ℤ))
      (fun g => g.contours) (List.range n)]
    exact perm_flatMap (fun g => g.contours) hpart

/-- Witness for C2 at a two-glyph, one-section pipeline run. -/
theorem sequencers_permutation_witness :
    List.Perm
      ((List.range 1).flatMap (fun i =>
        (sortContoursByPathV8
          (safelyMergeWordsV8 (buildSections 200 1
            [⟨10, 0, 20, 5, 50, [⟨[(10, 0), (30, 0)], 7⟩], 7, (20, 2)⟩,
             ⟨150, 0, 20, 5, 50, [⟨[(150, 0), (170, 0)], 9⟩], 9, (160, 2)⟩] (i : ℤ)))).flatMap
          (fun g => g.contours)))
      (([⟨10, 0, 20, 5, 50, [⟨[(10, 0), (30, 0)], 7⟩], 7, (20, 2)⟩,
         ⟨150, 0, 20, 5, 50, [⟨[(150, 0), (170, 0)], 9⟩], 9, (160, 2)⟩] : List Glyph).flatMap
        (fun g => g.contours)) :=
  sequencers_permutation.2.2.2 200 1 _ (by norm_num) (by norm_num)
    (by intro g hgm; fin_cases hgm <;> norm_num [centerX])

/-! ## Claim C3: segment boundary exactness -/

/-- Claim C3: for a segment `[s, e)` with `e > s` and at least one assigned
unit, the renderer draws every unit fully (all contours filled) as soon as
`t ≥ e`, independent of the interior progress arithmetic; before `s` the
segment contributes nothing; and before `e` every filled contour it
contributes belongs to one of its units (no unit beyond fully drawn). -/
theorem segment_timing (th s e : ℚ) (gs : List Glyph)
    (hgs : gs ≠ []) (hse : s < e) :
    (∀ t, e ≤ t →
      segGlyphOps th gs s e t = gs.flatMap (fun g => g.contours.map .fill)) ∧
    (∀ t, t < s → segGlyphOps th gs s e t = []) ∧
    (∀ t, t < e → ∀ c ∈ fillsOf (segGlyphOps th gs s e t),
      ∃ g ∈ gs, c ∈ g.contours) := by
  have hne : gs.isEmpty = false := by
    cases gs with
    | nil => exact absurd rfl hgs
    | cons a l => rfl
  refine ⟨?_, ?_, ?_⟩
  · intro t hte
    have h1 : ¬t < s := not_lt.mpr (le_trans hse.le hte)
    simp [segGlyphOps, hne, h1, hte]
  · intro t hts
    simp [segGlyphOps, hne, hts]
  · intro t _ c hc
    exact mem_fillsOf_segGlyphOps th s e t gs c hc

/-- Witness for C3 at a one-glyph segment over `[0, 2)`: fully drawn at
t = 3, empty at t = -1, and interior fills stay inside the unit at t = 1. -/
theorem segment_timing_witness :
    (segGlyphOps 15 [⟨0, 0, 10, 10, 100, [⟨[(0, 0), (10, 0), (10, 10), (0, 10)], 40⟩],
        40, (5, 5)⟩] 0 2 3
      = ([⟨0, 0, 10, 10, 100, [⟨[(0, 0), (10, 0), (10, 10), (0, 10)], 40⟩],
          40, (5, 5)⟩] : List Glyph).flatMap (fun g => g.contours.map .fill)) ∧
    (segGlyphOps 15 [⟨0, 0, 10, 10, 100, [⟨[(0, 0), (10, 0), (10, 10), (0, 10)], 40⟩],
        40, (5, 5)⟩] 0 2 (-1) = []) ∧
    (∀ c ∈ fillsOf (segGlyphOps 15
        [⟨0, 0, 10, 10, 100, [⟨[(0, 0), (10, 0), (10, 10), (0, 10)], 40⟩],
          40, (5, 5)⟩] 0 2 1),
      ∃ g ∈ ([⟨0, 0, 10, 10, 100, [⟨[(0, 0), (10, 0), (10, 10), (0, 10)], 40⟩],
          40, (5, 5)⟩] : List Glyph), c ∈ g.contours) := by
  have h := segment_timing 15 0 2
    [⟨0, 0, 10, 10, 100, [⟨[(0, 0), (10, 0), (10, 10), (0, 10)], 40⟩], 40, (5, 5)⟩]
    (by simp) (by norm_num)
  exact ⟨h.1 3 (by norm_num), h.2.1 (-1) (by norm_num), h.2.2 1 (by norm_num)⟩

theorem bestContainLoop_sound (gx gy : ℚ) :
    ∀ (l : List (Option SegMeta)) (acc : Option (ℕ × ℚ)) (ba : ℕ × ℚ),
      bestContainLoop gx gy l acc = some ba →
      acc = some ba ∨ ∃ m : SegMeta, some m ∈ l ∧ m.idx = ba.1 ∧ m.area = ba.2 ∧
        metaContains m gx gy = true := by
  intro l
  induction l with
  | nil => intro acc ba h; exact Or.inl h
  | cons o rest ih =>
    intro acc ba h
    rcases o with _ | m0
    · rcases ih acc ba h with h1 | ⟨m, hm, hrest⟩
      · exact Or.inl h1
      · exact Or.inr ⟨m, List.mem_cons_of_mem _ hm, hrest⟩
    · by_cases hc : metaContains m0 gx gy = true
      · rcases acc with _ | a0
        · rw [show bestContainLoop gx gy (some m0 :: rest) none
              = bestContainLoop gx gy rest (some (m0.idx, m0.area)) by
            simp [bestContainLoop, hc]] at h
          rcases ih _ ba h with h1 | ⟨m, hm, hrest⟩
          · refine Or.inr ⟨m0, List.mem_cons_self _ _, ?_, ?_, hc⟩ <;>
              · injection h1 with h1
                rw [← h1]
          · exact Or.inr ⟨m, List.mem_cons_of_mem _ hm, hrest⟩
        · by_cases ha : m0.area < a0.2
          · rw [show bestContainLoop gx gy (some m0 :: rest) (some a0)
                = bestContainLoop gx gy rest (some (m0.idx, m0.area)) by
              simp [bestContainLoop, hc, ha]] at h
            rcases ih _ ba h with h1 | ⟨m, hm, hrest⟩
            · refine Or.inr ⟨m0, List.mem_cons_self _ _, ?_, ?_, hc⟩ <;>
                · injection h1 with h1
                  rw [← h1]
            · exact Or.inr ⟨m, List.mem_cons_of_mem _ hm, hrest⟩
          · rw [show bestContainLoop gx gy (some m0 :: rest) (some a0)
                = bestContainLoop gx gy rest (some a0) by
              simp [bestContainLoop, hc, ha]] at h
            rcases ih _ ba h with h1 | ⟨m, hm, hrest⟩
            · exact Or.inl h1
            · exact Or.inr ⟨m, List.mem_cons_of_mem _ hm, hrest⟩
      · rw [show bestContainLoop gx gy (some m0 :: rest) acc
            = bestContainLoop gx gy rest acc by
          simp [bestContainLoop, hc]] at h
        rcases ih acc ba h with h1 | ⟨m, hm, hrest⟩
        · exact Or.inl h1
        · exact Or.inr ⟨m, List.mem_cons_of_mem _ hm, hrest⟩

theorem bestContainLoop_min (gx gy : ℚ) :
    ∀ (l : List (Option SegMeta)) (acc : Option (ℕ × ℚ)) (ba : ℕ × ℚ),
      bestContainLoop gx gy l acc = some ba →
      (∀ m : SegMeta, some m ∈ l → metaContains m gx gy = true → ba.2 ≤ m.area) ∧
      (∀ a, acc = some a → ba.2 ≤ a.2) := by
  intro l
  induction l with
  | nil =>
    intro acc ba h
    refine ⟨by simp, ?_⟩
    intro a ha
    rw [ha] at h
    injection h with h
    rw [h]
  | cons o rest ih =>
    intro acc ba h
    rcases o with _ | m0
    · obtain ⟨h1, h2⟩ := ih acc ba h
      refine ⟨?_, h2⟩
      intro m hm hcm
      rcases List.mem_cons.mp hm with hh | hh
      · exact absurd hh (by simp)
      · exact h1 m hh hcm
    · by_cases hc : metaContains m0 gx gy = true
      · rcases acc with _ | a0
        · rw [show bestContainLoop gx gy (some m0 :: rest) none
              = bestContainLoop gx gy rest (some (m0.idx, m0.area)) by
            simp [bestContainLoop, hc]] at h
          obtain ⟨h1, h2⟩ := ih _ ba h
          refine ⟨?_, by simp⟩
          intro m hm hcm
          rcases List.mem_cons.mp hm with hh | hh
          · have := h2 (m0.idx, m0.area) rfl
            simpa [Option.some.inj hh] using this
          · exact h1 m hh hcm
        · by_cases ha : m0.area < a0.2
          · rw [show bestContainLoop gx gy (some m0 :: rest) (some a0)
                = bestContainLoop gx gy rest (some (m0.idx, m0.area)) by
              simp [bestContainLoop, hc, ha]] at h
            obtain ⟨h1, h2⟩ := ih _ ba h
            have hm0 : ba.2 ≤ m0.area := h2 (m0.idx, m0.area) rfl
            refine ⟨?_, ?_⟩
            · intro m hm hcm
              rcases List.mem_cons.mp hm with hh | hh
              · simpa [Option.some.inj hh] using hm0
              · exact h1 m hh hcm
            · intro a haq
              injection haq with haq
              rw [← haq]
              exact le_trans hm0 (le_of_lt ha)
          · rw [show bestContainLoop gx gy (some m0 :: rest) (some a0)
                = bestContainLoop gx gy rest (some a0) by
              simp [bestContainLoop, hc, ha]] at h
            obtain ⟨h1, h2⟩ := ih _ ba h
            have ha0 : ba.2 ≤ a0.2 := h2 a0 rfl
            refine ⟨?_, ?_⟩
            · intro m hm hcm
              rcases List.mem_cons.mp hm with hh | hh
              · have : m = m0 := Option.some.inj hh
                rw [this]
                exact le_trans ha0 (not_lt.mp ha)
              · exact h1 m hh hcm
            · intro a haq
              injection haq with haq
              rw [← haq]
              exact ha0
      · rw [show bestContainLoop gx gy (some m0 :: rest) acc
            = bestContainLoop gx gy rest acc by
          simp [bestContainLoop, hc]] at h
        obtain ⟨h1, h2⟩ := ih acc ba h
        refine ⟨?_, h2⟩
        intro m hm hcm
        rcases List.mem_cons.mp hm with hh | hh
        · have : m = m0 := Option.some.inj hh
          rw [this] at hcm
          exact absurd hcm (by simp [hc])
        · exact h1 m hh hcm

theorem bestContainLoop_none (gx gy : ℚ) :
    ∀ (l : List (Option SegMeta)) (acc : Option (ℕ × ℚ)),
      bestContainLoop gx gy l acc = none →
      acc = none ∧
        ∀ m : SegMeta, some m ∈ l → metaContains m gx gy = false := by
  intro l
  induction l with
  | nil => intro acc h; exact ⟨h, by simp⟩
  | cons o rest ih =>
    intro acc h
    rcases o with _ | m0
    · obtain ⟨h1, h2⟩ := ih acc h
      refine ⟨h1, ?_⟩
      intro m hm
      rcases List.mem_cons.mp hm with hh | hh
      · exact absurd hh (by simp)
      · exact h2 m hh
    · by_cases hc : metaContains m0 gx gy = true
      · exfalso
        rcases acc with _ | a0
        · rw [show bestContainLoop gx gy (some m0 :: rest) none
              = bestContainLoop gx gy rest (some (m0.idx, m0.area)) by
            simp [bestContainLoop, hc]] at h
          exact absurd (ih _ h).1 (by simp)
        · by_cases ha : m0.area < a0.2
          · rw [show bestContainLoop gx gy (some m0 :: rest) (some a0)
                = bestContainLoop gx gy rest (some (m0.idx, m0.area)) by
              simp [bestContainLoop, hc, ha]] at h
            exact absurd (ih _ h).1 (by simp)
          · rw [show bestContainLoop gx gy (some m0 :: rest) (some a0)
                = bestContainLoop gx gy rest (some a0) by
              simp [bestContainLoop, hc, ha]] at h
            exact absurd (ih _ h).1 (by simp)
      · rw [show bestContainLoop gx gy (some m0 :: rest) acc
            = bestContainLoop gx gy rest acc by
          simp [bestContainLoop, hc]] at h
        obtain ⟨h1, h2⟩ := ih acc h
        refine ⟨h1, ?_⟩
        intro m hm
        rcases List.mem_cons.mp hm with hh | hh
        · have : m = m0 := Option.some.inj hh
          rw [this]
          simpa using hc
        · exact h2 m hh

theorem nearestLoop_sound (gx gy : ℚ) :
    ∀ (l : List SegMeta) (acc : Option (ℕ × ℚ)) (ba : ℕ × ℚ),
      nearestLoop gx gy l acc = some ba →
      acc = some ba ∨ ∃ m : SegMeta, m ∈ l ∧ m.idx = ba.1 ∧
        sqDist (gx, gy) m.center = ba.2 := by
  intro l
  induction l with
  | nil => intro acc ba h; exact Or.inl h
  | cons m0 rest ih =>
    intro acc ba h
    rcases acc with _ | a0
    · rw [show nearestLoop gx gy (m0 :: rest) none
          = nearestLoop gx gy rest (some (m0.idx, sqDist (gx, gy) m0.center)) from rfl] at h
      rcases ih _ ba h with h1 | ⟨m, hm, hrest⟩
      · have := Option.some.inj h1
        exact Or.inr ⟨m0, List.mem_cons_self _ _, by rw [← this], by rw [← this]⟩
      · exact Or.inr ⟨m, List.mem_cons_of_mem _ hm, hrest⟩
    · by_cases hd : sqDist (gx, gy) m0.center < a0.2
      · rw [show nearestLoop gx gy (m0 :: rest) (some a0)
            = nearestLoop gx gy rest (some (m0.idx, sqDist (gx, gy) m0.center)) by
          simp [nearestLoop, hd]] at h
        rcases ih _ ba h with h1 | ⟨m, hm, hrest⟩
        · have := Option.some.inj h1
          exact Or.inr ⟨m0, List.mem_cons_self _ _, by rw [← this], by rw [← this]⟩
        · exact Or.inr ⟨m, List.mem_cons_of_mem _ hm, hrest⟩
      · rw [show nearestLoop gx gy (m0 :: rest) (some a0)
            = nearestLoop gx gy rest (some a0) by
          simp [nearestLoop, hd]] at h
        rcases ih _ ba h with h1 | ⟨m, hm, hrest⟩
        · exact Or.inl h1
        · exact Or.inr ⟨m, List.mem_cons_of_mem _ hm, hrest⟩

theorem nearestLoop_min (gx gy : ℚ) :
    ∀ (l : List SegMeta) (acc : Option (ℕ × ℚ)) (ba : ℕ × ℚ),
      nearestLoop gx gy l acc = some ba →
      (∀ m ∈ l, ba.2 ≤ sqDist (gx, gy) m.center) ∧
      (∀ a, acc = some a → ba.2 ≤ a.2) := by
  intro l
  induction l with
  | nil =>
    intro acc ba h
    refine ⟨by simp, ?_⟩
    intro a ha
    rw [ha] at h
    rw [Option.some.inj h]
  | cons m0 rest ih =>
    intro acc ba h
    rcases acc with _ | a0
    · rw [show nearestLoop gx gy (m0 :: rest) none
          = nearestLoop gx gy rest (some (m0.idx, sqDist (gx, gy) m0.center)) from rfl] at h
      obtain ⟨h1, h2⟩ := ih _ ba h
      have hm0 : ba.2 ≤ sqDist (gx, gy) m0.center := h2 _ rfl
      refine ⟨?_, by simp⟩
      intro m hm
      rcases List.mem_cons.mp hm with hh | hh
      · rw [hh]; exact hm0
      · exact h1 m hh
    · by_cases hd : sqDist (gx, gy) m0.center < a0.2
      · rw [show nearestLoop gx gy (m0 :: rest) (some a0)
            = nearestLoop gx gy rest (some (m0.idx, sqDist (gx, gy) m0.center)) by
          simp [nearestLoop, hd]] at h
        obtain ⟨h1, h2⟩ := ih _ ba h
        have hm0 : ba.2 ≤ sqDist (gx, gy) m0.center := h2 _ rfl
        refine ⟨?_, ?_⟩
        · intro m hm
          rcases List.mem_cons.mp hm with hh | hh
          · rw [hh]; exact hm0
          · exact h1 m hh
        · intro a haq
          rw [← Option.some.inj haq]
          exact le_trans hm0 (le_of_lt hd)
      · rw [show nearestLoop gx gy (m0 :: rest) (some a0)
            = nearestLoop gx gy rest (some a0) by
          simp [nearestLoop, hd]] at h
        obtain ⟨h1, h2⟩ := ih _ ba h
        have ha0 : ba.2 ≤ a0.2 := h2 _ rfl
        refine ⟨?_, ?_⟩
        · intro m hm
          rcases List.mem_cons.mp hm with hh | hh
          · rw [hh]; exact le_trans ha0 (not_lt.mp hd)
          · exact h1 m hh
        · intro a haq
          rw [← Option.some.inj haq]
          exact ha0

theorem nearestLoop_none (gx gy : ℚ) :
    ∀ (l : List SegMeta) (acc : Option (ℕ × ℚ)),
      nearestLoop gx gy l acc = none → acc = none ∧ l = [] := by
  intro l
  induction l with
  | nil => intro acc h; exact ⟨h, rfl⟩
  | cons m0 rest ih =>
    intro acc h
    exfalso
    rcases acc with _ | a0
    · rw [show nearestLoop gx gy (m0 :: rest) none
          = nearestLoop gx gy rest (some (m0.idx, sqDist (gx, gy) m0.center)) from rfl] at h
      exact absurd (ih _ h).1 (by simp)
    · by_cases hd : sqDist (gx, gy) m0.center < a0.2
      · rw [show nearestLoop gx gy (m0 :: rest) (some a0)
            = nearestLoop gx gy rest (some (m0.idx, sqDist (gx, gy) m0.center)) by
          simp [nearestLoop, hd]] at h
        exact absurd (ih _ h).1 (by simp)
      · rw [show nearestLoop gx gy (m0 :: rest) (some a0)
            = nearestLoop gx gy rest (some a0) by
          simp [nearestLoop, hd]] at h
        exact absurd (ih _ h).1 (by simp)

theorem segMetaOf_idx (w h : ℚ) (i : ℕ) (b : Option (ℚ × ℚ × ℚ × ℚ))
    (m : SegMeta) (hm : segMetaOf w h i b = some m) : m.idx = i := by
  rcases b with _ | ⟨a, b2, c, d⟩
  · simp [segMetaOf] at hm
  · simp only [segMetaOf] at hm
    split at hm
    · exact absurd hm (by simp)
    · rw [← Option.some.inj hm]

theorem segMetasFrom_idx (w h : ℚ) :
    ∀ (segs : List (Option (ℚ × ℚ × ℚ × ℚ))) (i : ℕ) (m : SegMeta),
      some m ∈ segMetasFrom w h i segs → i ≤ m.idx ∧ m.idx < i + segs.length := by
  intro segs
  induction segs with
  | nil => intro i m hm; simp [segMetasFrom] at hm
  | cons b rest ih =>
    intro i m hm
    rcases List.mem_cons.mp hm with hh | hh
    · have := segMetaOf_idx w h i b m hh.symm
      simp only [List.length_cons, this]
      omega
    · have := ih (i + 1) m hh
      simp only [List.length_cons]
      omega

/-! ## Claim C7: external bbox assignment is total and deterministic -/

/-- Claim C7: with at least one external segment supplied, every glyph is
resolved to exactly one valid segment index and the resolution never
fails: a glyph whose center lies in one or more valid boxes goes to a
containing box of minimal area, a glyph covered by no box goes to the
valid box of nearest center, and with no valid boxes at all it goes to
segment 0. -/
theorem bbox_assignment_total (width height : ℚ)
    (segs : List (Option (ℚ × ℚ × ℚ × ℚ))) (g : Glyph) (hsegs : segs ≠ []) :
    (assignGlyphV6 (segMetas width height segs) g < segs.length) ∧
    ((∃ m : SegMeta, some m ∈ segMetas width height segs ∧
        metaContains m (clusterGX g) (clusterGY g) = true) →
      ∃ m : SegMeta, some m ∈ segMetas width height segs ∧
        metaContains m (clusterGX g) (clusterGY g) = true ∧
        assignGlyphV6 (segMetas width height segs) g = m.idx ∧
        ∀ m' : SegMeta, some m' ∈ segMetas width height segs →
          metaContains m' (clusterGX g) (clusterGY g) = true →
          m.area ≤ m'.area) ∧
    ((∀ m : SegMeta, some m ∈ segMetas width height segs →
        metaContains m (clusterGX g) (clusterGY g) = false) →
      (segMetas width height segs).filterMap id ≠ [] →
      ∃ m : SegMeta, some m ∈ segMetas width height segs ∧
        assignGlyphV6 (segMetas width height segs) g = m.idx ∧
        ∀ m' : SegMeta, some m' ∈ segMetas width height segs →
          sqDist (clusterGX g, clusterGY g) m.center
            ≤ sqDist (clusterGX g, clusterGY g) m'.center) ∧
    ((segMetas width height segs).filterMap id = [] →
      assignGlyphV6 (segMetas width height segs) g = 0) := by
  set gx := clusterGX g with hgx
  set gy := clusterGY g with hgy
  set metas := segMetas width height segs with hmetas
  have hidx : ∀ m : SegMeta, some m ∈ metas → m.idx < segs.length := by
    intro m hm
    have := segMetasFrom_idx width height segs 0 m hm
    omega
  have hmemfm : ∀ m : SegMeta, m ∈ metas.filterMap id ↔ some m ∈ metas := by
    intro m
    simp [List.mem_filterMap]
  refine ⟨?_, ?_, ?_, ?_⟩
  · -- validity of the resolved index
    rcases hbc : bestContainLoop gx gy metas none with _ | ba
    · rcases hnl : nearestLoop gx gy (metas.filterMap id) none with _ | ba
      · have h0 : assignGlyphV6 metas g = 0 := by
          simp [assignGlyphV6, ← hgx, ← hgy, hbc, hnl]
        rw [h0]
        exact List.length_pos.mpr hsegs
      · have h0 : assignGlyphV6 metas g = ba.1 := by
          simp [assignGlyphV6, ← hgx, ← hgy, hbc, hnl]
        rw [h0]
        rcases nearestLoop_sound gx gy _ _ _ hnl with h1 | ⟨m, hm, hmi, _⟩
        · exact absurd h1 (by simp)
        · rw [← hmi]
          exact hidx m ((hmemfm m).mp hm)
    · have h0 : assignGlyphV6 metas g = ba.1 := by
        simp [assignGlyphV6, ← hgx, ← hgy, hbc]
      rw [h0]
      rcases bestContainLoop_sound gx gy _ _ _ hbc with h1 | ⟨m, hm, hmi, _, _⟩
      · exact absurd h1 (by simp)
      · rw [← hmi]
        exact hidx m hm
  · -- containment case: smallest containing box
    rintro ⟨mc, hmc, hcc⟩
    rcases hbc : bestContainLoop gx gy metas none with _ | ba
    · exfalso
      have := (bestContainLoop_none gx gy metas none hbc).2 mc hmc
      rw [hcc] at this
      exact Bool.true_eq_false.mp this
    · have h0 : assignGlyphV6 metas g = ba.1 := by
        simp [assignGlyphV6, ← hgx, ← hgy, hbc]
      rcases bestContainLoop_sound gx gy _ _ _ hbc with h1 | ⟨m, hm, hmi, hma, hmcont⟩
      · exact absurd h1 (by simp)
      · refine ⟨m, hm, hmcont, by rw [h0, hmi], ?_⟩
        intro m' hm' hc'
        have := (bestContainLoop_min gx gy metas none ba hbc).1 m' hm' hc'
        rw [← hma] at this
        exact this
  · -- no containing box: nearest valid center
    intro hnone hvalid
    have hbc : bestContainLoop gx gy metas none = none := by
      rcases hbc : bestContainLoop gx gy metas none with _ | ba
      · rfl
      · exfalso
        rcases bestContainLoop_sound gx gy _ _ _ hbc with h1 | ⟨m, hm, _, _, hmcont⟩
        · exact absurd h1 (by simp)
        · rw [hnone m hm] at hmcont
          exact Bool.false_eq_true.mp hmcont
    rcases hnl : nearestLoop gx gy (metas.filterMap id) none with _ | ba
    · exfalso
      exact hvalid (nearestLoop_none gx gy _ _ hnl).2
    · have h0 : assignGlyphV6 metas g = ba.1 := by
        simp [assignGlyphV6, ← hgx, ← hgy, hbc, hnl]
      rcases nearestLoop_sound gx gy _ _ _ hnl with h1 | ⟨m, hm, hmi, hmd⟩
      · exact absurd h1 (by simp)
      · refine ⟨m, (hmemfm m).mp hm, by rw [h0, hmi], ?_⟩
        intro m' hm'
        have := (nearestLoop_min gx gy _ _ _ hnl).1 m' ((hmemfm m').mpr hm')
        rw [← hmd] at this
        exact this
  · -- no valid boxes at all: segment 0
    intro hval
    have hbc : bestContainLoop gx gy metas none = none := by
      rcases hbc : bestContainLoop gx gy metas none with _ | ba
      · rfl
      · exfalso
        rcases bestContainLoop_sound gx gy _ _ _ hbc with h1 | ⟨m, hm, _, _, _⟩
        · exact absurd h1 (by simp)
        · have : m ∈ metas.filterMap id := (hmemfm m).mpr hm
          rw [hval] at this
          exact absurd this (List.not_mem_nil m)
    have hnl : nearestLoop gx gy (metas.filterMap id) none = none := by
      rw [hval]
      rfl
    simp [assignGlyphV6, ← hgx, ← hgy, hbc, hnl]

/-- Witness for C7: two overlapping valid boxes, the small one wins for a
glyph centered inside both. -/
theorem bbox_assignment_total_witness :
    (assignGlyphV6 (segMetas 1000 1000 [some (0, 0, 1000, 1000), some (0, 0, 500, 500)])
        ⟨100, 100, 50, 50, 100, [], 0, (125, 125)⟩ < 2) ∧
    ((∃ m : SegMeta,
        some m ∈ segMetas 1000 1000 [some (0, 0, 1000, 1000), some (0, 0, 500, 500)] ∧
        metaContains m (clusterGX ⟨100, 100, 50, 50, 100, [], 0, (125, 125)⟩)
          (clusterGY ⟨100, 100, 50, 50, 100, [], 0, (125, 125)⟩) = true) →
      ∃ m : SegMeta,
        some m ∈ segMetas 1000 1000 [some (0, 0, 1000, 1000), some (0, 0, 500, 500)] ∧
        metaContains m (clusterGX ⟨100, 100, 50, 50, 100, [], 0, (125, 125)⟩)
          (clusterGY ⟨100, 100, 50, 50, 100, [], 0, (125, 125)⟩) = true ∧
        assignGlyphV6 (segMetas 1000 1000 [some (0, 0, 1000, 1000), some (0, 0, 500, 500)])
          ⟨100, 100, 50, 50, 100, [], 0, (125, 125)⟩ = m.idx ∧
        ∀ m' : SegMeta,
          some m' ∈ segMetas 1000 1000 [some (0, 0, 1000, 1000), some (0, 0, 500, 500)] →
          metaContains m' (clusterGX ⟨100, 100, 50, 50, 100, [], 0, (125, 125)⟩)
            (clusterGY ⟨100, 100, 50, 50, 100, [], 0, (125, 125)⟩) = true →
          m.area ≤ m'.area) :=
  ⟨(bbox_assignment_total 1000 1000 [some (0, 0, 1000, 1000), some (0, 0, 500, 500)]
      ⟨100, 100, 50, 50, 100, [], 0, (125, 125)⟩ (by simp)).1,
   (bbox_assignment_total 1000 1000 [some (0, 0, 1000, 1000), some (0, 0, 500, 500)]
      ⟨100, 100, 50, 50, 100, [], 0, (125, 125)⟩ (by simp)).2.1⟩

theorem fillsOf_flatMap {α : Type} (f : α → List DrawOp) :
    ∀ L : List α, fillsOf (L.flatMap f) = L.flatMap (fun x => fillsOf (f x)) := by
  intro L
  induction L with
  | nil => rfl
  | cons x xs ih => simp only [List.flatMap_cons, fillsOf_append, ih]

theorem mem_fillsOf_active_mono (th : ℚ) {t1 t2 : ℚ} (h12 : t1 ≤ t2) :
    ∀ (cs : List Contour) (cur : ℚ) (c : Contour),
      c ∈ fillsOf (activeGlyphOps th t1 cs cur) →
      c ∈ fillsOf (activeGlyphOps th t2 cs cur) := by
  intro cs
  induction cs with
  | nil => intro cur c hc; simpa [activeGlyphOps, fillsOf] using hc
  | cons c0 rest ih =>
    intro cur c hc
    rw [activeGlyphOps] at hc ⊢
    by_cases h1 : cur + c0.len ≤ t1
    · have h2 : cur + c0.len ≤ t2 := le_trans h1 h12
      rw [if_pos h1] at hc
      rw [if_pos h2]
      simp only [fillsOf, List.filterMap_cons] at hc ⊢
      rcases List.mem_cons.mp hc with hh | hh
      · exact hh ▸ List.mem_cons_self _ _
      · exact List.mem_cons_of_mem _ (ih _ c hh)
    · rw [if_neg h1] at hc
      split at hc
      · split at hc <;> simp [fillsOf] at hc
      · simp [fillsOf] at hc

theorem segGlyphOps_progressive_eq (th s e t : ℚ) (gs : List Glyph)
    (hemp : gs.isEmpty = false) (hts : ¬t < s) (hte : ¬e ≤ t) :
    segGlyphOps th gs s e t =
      (gs.take ((pyInt ((gs.length : ℚ) * ((t - s) / (e - s)))).toNat)).flatMap
        (fun g => g.contours.map .fill)
      ++ (if h : ((pyInt ((gs.length : ℚ) * ((t - s) / (e - s)))).toNat) < gs.length then
            activeGlyphOps th
              ((gs.get ⟨(pyInt ((gs.length : ℚ) * ((t - s) / (e - s)))).toNat, h⟩).total_len
                * ((gs.length : ℚ) * ((t - s) / (e - s))
                  - ((pyInt ((gs.length : ℚ) * ((t - s) / (e - s)))).toNat : ℚ)))
              (gs.get ⟨(pyInt ((gs.length : ℚ) * ((t - s) / (e - s)))).toNat, h⟩).contours 0
          else []) := by
  simp [segGlyphOps, hemp, hts, hte]

theorem mem_fillsOf_seg_mono (th s e : ℚ) (gs : List Glyph) {t1 t2 : ℚ}
    (h12 : t1 ≤ t2) (hlen : ∀ g ∈ gs, 0 ≤ g.total_len) (c : Contour)
    (hc : c ∈ fillsOf (segGlyphOps th gs s e t1)) :
    c ∈ fillsOf (segGlyphOps th gs s e t2) := by
  by_cases hemp : gs.isEmpty
  · simp [segGlyphOps, hemp, fillsOf] at hc
  · have hempf : gs.isEmpty = false := by simpa using hemp
    by_cases hts1 : t1 < s
    · simp [segGlyphOps, hempf, hts1, fillsOf] at hc
    · have hts2 : ¬t2 < s := not_lt.mpr (le_trans (not_lt.mp hts1) h12)
      by_cases hte1 : e ≤ t1
      · have hte2 : e ≤ t2 := le_trans hte1 h12
        rw [show segGlyphOps th gs s e t1 = gs.flatMap (fun g => g.contours.map .fill) by
          simp [segGlyphOps, hempf, hts1, hte1]] at hc
        rw [show segGlyphOps th gs s e t2 = gs.flatMap (fun g => g.contours.map .fill) by
          simp [segGlyphOps, hempf, hts2, hte2]]
        exact hc
      · by_cases hte2 : e ≤ t2
        · obtain ⟨gm, hgm, hcg⟩ := mem_fillsOf_segGlyphOps th s e t1 gs c hc
          rw [show segGlyphOps th gs s e t2 = gs.flatMap (fun g => g.contours.map .fill) by
            simp [segGlyphOps, hempf, hts2, hte2]]
          rw [fillsOf_flatMap_fill]
          exact List.mem_flatMap.mpr ⟨gm, hgm, hcg⟩
        · -- progressive at both query times
          have hse : s < e := lt_of_le_of_lt (not_lt.mp hts1) (not_le.mp hte1)
          have hnn : (0 : ℚ) ≤ (gs.length : ℚ) := Nat.cast_nonneg _
          have hprog : (t1 - s) / (e - s) ≤ (t2 - s) / (e - s) :=
            (div_le_div_right (by linarith : (0 : ℚ) < e - s)).mpr (by linarith)
          have hp1 : 0 ≤ (t1 - s) / (e - s) :=
            div_nonneg (by linarith [not_lt.mp hts1]) (by linarith)
          have hcf : (gs.length : ℚ) * ((t1 - s) / (e - s))
              ≤ (gs.length : ℚ) * ((t2 - s) / (e - s)) :=
            mul_le_mul_of_nonneg_left hprog hnn
          have hcf1 : 0 ≤ (gs.length : ℚ) * ((t1 - s) / (e - s)) := mul_nonneg hnn hp1
          have hcf2 : 0 ≤ (gs.length : ℚ) * ((t2 - s) / (e - s)) := le_trans hcf1 hcf
          have hi12 : (pyInt ((gs.length : ℚ) * ((t1 - s) / (e - s)))).toNat
              ≤ (pyInt ((gs.length : ℚ) * ((t2 - s) / (e - s)))).toNat := by
            rw [pyInt_of_nonneg hcf1, pyInt_of_nonneg hcf2]
            exact Int.toNat_le_toNat (Int.floor_le_floor hcf)
          rw [segGlyphOps_progressive_eq th s e t1 gs hempf hts1 hte1] at hc
          rw [segGlyphOps_progressive_eq th s e t2 gs hempf hts2 hte2]
          rw [fillsOf_append] at hc ⊢
          rcases List.mem_append.mp hc with hcomp | hact
          · -- completed at t1 stays completed at t2
            rw [fillsOf_flatMap_fill] at hcomp ⊢
            refine List.mem_append.mpr (Or.inl ?_)
            obtain ⟨gm, hgm, hcg⟩ := List.mem_flatMap.mp hcomp
            refine List.mem_flatMap.mpr ⟨gm, ?_, hcg⟩
            have htt : gs.take ((pyInt ((gs.length : ℚ) * ((t1 - s) / (e - s)))).toNat)
                = (gs.take ((pyInt ((gs.length : ℚ) * ((t2 - s) / (e - s)))).toNat)).take
                    ((pyInt ((gs.length : ℚ) * ((t1 - s) / (e - s)))).toNat) := by
              rw [List.take_take]
              rw [min_eq_left hi12]
            rw [htt] at hgm
            exact List.take_subset _ _ hgm
          · -- the active glyph at t1
            split at hact
            · rename_i hidx1
              rcases lt_or_eq_of_le hi12 with hlt | heq
              · -- strictly later index: the whole glyph is now completed
                refine List.mem_append.mpr (Or.inl ?_)
                rw [fillsOf_flatMap_fill]
                have hcg := mem_fillsOf_active_sub _ _ _ _ _ hact
                refine List.mem_flatMap.mpr ⟨gs.get ⟨_, hidx1⟩, ?_, hcg⟩
                have hb : (pyInt ((gs.length : ℚ) * ((t1 - s) / (e - s)))).toNat
                    < (gs.take ((pyInt ((gs.length : ℚ) * ((t2 - s) / (e - s)))).toNat)).length := by
                  rw [List.length_take]
                  omega
                have hg : (gs.take ((pyInt ((gs.length : ℚ) * ((t2 - s) / (e - s)))).toNat)).get
                    ⟨_, hb⟩ = gs.get ⟨_, hidx1⟩ := by
                  simp [List.get_eq_getElem, List.getElem_take]
                rw [← hg]
                exact List.get_mem _ _ _
              · -- same index: monotone in the intra-glyph target
                refine List.mem_append.mpr (Or.inr ?_)
                rw [← heq]
                rw [dif_pos hidx1]
                have htl : 0 ≤ (gs.get ⟨_, hidx1⟩).total_len :=
                  hlen _ (List.get_mem gs _ hidx1)
                refine mem_fillsOf_active_mono th ?_ _ _ _ hact
                have : (gs.length : ℚ) * ((t1 - s) / (e - s))
                    - ((pyInt ((gs.length : ℚ) * ((t1 - s) / (e - s)))).toNat : ℚ)
                    ≤ (gs.length : ℚ) * ((t2 - s) / (e - s))
                    - ((pyInt ((gs.length : ℚ) * ((t1 - s) / (e - s)))).toNat : ℚ) := by
                  linarith
                exact mul_le_mul_of_nonneg_left this htl
            · simp [fillsOf] at hact

/-! ## Claim C1: is the reveal mask monotone in time? -/

/-- Claim C1 (amended): the filled-contour part of the reveal is monotone —
every contour drawn filled at `t1` is still drawn filled at any `t2 ≥ t1`
(glyph stroke lengths being nonnegative), so pixels revealed by fills never
disappear; the full mask-superset claim fails only for the thick partial
polyline of the active glyph (see the counterexample). -/
theorem fill_reveal_monotone (th : ℚ) (sections : ℤ → List Glyph)
    (segTimes : List SegTime) (t1 t2 : ℚ) (h12 : t1 ≤ t2)
    (hlen : ∀ i : ℤ, ∀ g ∈ sections i, 0 ≤ g.total_len) :
    (∀ c, c ∈ fillsOf (makeFrameOps th sections segTimes t1) →
      c ∈ fillsOf (makeFrameOps th sections segTimes t2)) ∧
    (∀ p, fillMask th sections segTimes t1 p = true →
      fillMask th sections segTimes t2 p = true) := by
  have hmem : ∀ c, c ∈ fillsOf (makeFrameOps th sections segTimes t1) →
      c ∈ fillsOf (makeFrameOps th sections segTimes t2) := by
    intro c hc
    rw [makeFrameOps, fillsOf_flatMap] at hc ⊢
    obtain ⟨st, hst, hcs⟩ := List.mem_flatMap.mp hc
    exact List.mem_flatMap.mpr
      ⟨st, hst, mem_fillsOf_seg_mono th st.start st.stop _ h12 (hlen _) c hcs⟩
  refine ⟨hmem, ?_⟩
  intro p h1
  unfold fillMask at h1 ⊢
  by_cases hempty : segTimes.isEmpty
  · simp [hempty]
  · simp only [hempty, Bool.false_eq_true, if_false] at h1 ⊢
    rw [List.any_eq_true] at h1 ⊢
    obtain ⟨c, hc, hcov⟩ := h1
    exact ⟨c, hmem c hc, hcov⟩

/-- Counterexample to C1: with one 2-second segment holding one square
glyph, at t = 1 the active glyph's partial outline is stroked 15px thick
and covers the pixel (4, -5), 5px outside the square; at t = 2 the segment
is complete and only the filled square remains, which does not cover that
pixel — the coverage mask at the later time is not a superset of the
earlier one. -/
theorem reveal_mask_not_monotone :
    (1 : ℚ) < 2 ∧
    revealMask 15
      (fun i => if i = 0 then
        [⟨0, 0, 10, 10, 100, [⟨[(0, 0), (10, 0), (10, 10), (0, 10)], 40⟩], 40, (5, 5)⟩]
      else []) [⟨0, 0, 2⟩] 1 (4, -5) = true ∧
    revealMask 15
      (fun i => if i = 0 then
        [⟨0, 0, 10, 10, 100, [⟨[(0, 0), (10, 0), (10, 10), (0, 10)], 40⟩], 40, (5, 5)⟩]
      else []) [⟨0, 0, 2⟩] 2 (4, -5) = false := by
  refine ⟨by norm_num, ?_, ?_⟩
  · norm_num [revealMask, makeFrameOps, segGlyphOps, activeGlyphOps, pyInt,
      opCovers, strokeCovers, polySegs, sqDistPtSeg, sqDist, min_def, max_def,
      List.flatMap_cons, List.flatMap_nil]
  · norm_num [revealMask, makeFrameOps, segGlyphOps, opCovers, fillCovers,
      onBoundary, closedSegs, edgeCrossesRay, sqDistPtSeg, sqDist,
      List.rotate, min_def, max_def, List.flatMap_cons, List.flatMap_nil,
      List.countP_cons, List.countP_nil]

/-- Witness for the amended C1 at the square-glyph configuration: the
center pixel, revealed by fills at t = 2, is still revealed at t = 3. -/
theorem fill_reveal_monotone_witness :
    fillMask 15
      (fun i => if i = 0 then
        [⟨0, 0, 10, 10, 100, [⟨[(0, 0), (10, 0), (10, 10), (0, 10)], 40⟩], 40, (5, 5)⟩]
      else []) [⟨0, 0, 2⟩] 3 (5, 5) = true := by
  refine (fill_reveal_monotone 15
    (fun i => if i = 0 then
      [⟨0, 0, 10, 10, 100, [⟨[(0, 0), (10, 0), (10, 10), (0, 10)], 40⟩], 40, (5, 5)⟩]
    else []) [⟨0, 0, 2⟩] 2 3 (by norm_num) ?_).2 (5, 5) ?_
  · intro i g hg
    by_cases hi : i = 0
    · subst hi
      simp at hg
      subst hg
      norm_num
    · simp [hi] at hg
  · norm_num [fillMask, makeFrameOps, segGlyphOps, fillsOf, opCovers, fillCovers,
      onBoundary, closedSegs, edgeCrossesRay, sqDistPtSeg, sqDist,
      List.rotate, min_def, max_def, List.flatMap_cons, List.flatMap_nil,
      List.countP_cons, List.countP_nil]

/-! ## Claim C8: background classification threshold -/

/-- Claim C8: the normalizer classifies the background as dark exactly when
the mean grayscale luminance is below 127; a dark classification makes the
canvas and every frame start as solid black and selects the
bright-foreground threshold polarity, a light one solid white with the
inverted polarity. -/
theorem background_classification (gray : List ℚ) (hne : gray ≠ []) :
    (isDarkBg gray = true ↔ meanBrightness gray < 127) ∧
    (bgColorOf (isDarkBg gray) = (0, 0, 0) ↔ meanBrightness gray < 127) ∧
    (bgColorOf (isDarkBg gray) = (255, 255, 255) ↔ ¬meanBrightness gray < 127) ∧
    (threshTypeOf (isDarkBg gray) = .binary ↔ meanBrightness gray < 127) ∧
    (threshTypeOf (isDarkBg gray) = .binaryInv ↔ ¬meanBrightness gray < 127) ∧
    (∀ (th : ℚ) (sections : ℤ → List Glyph) (segTimes : List SegTime)
      (img : ℚ × ℚ → ℤ × ℤ × ℤ) (ink : ℚ × ℚ → Bool) (t : ℚ) (p : ℚ × ℚ),
      revealMask th sections segTimes t p = false →
      frameColor th sections segTimes (bgColorOf (isDarkBg gray)) img ink t p
        = bgColorOf (isDarkBg gray)) := by
  have hframe : ∀ (th : ℚ) (sections : ℤ → List Glyph) (segTimes : List SegTime)
      (img : ℚ × ℚ → ℤ × ℤ × ℤ) (ink : ℚ × ℚ → Bool) (t : ℚ) (p : ℚ × ℚ),
      revealMask th sections segTimes t p = false →
      frameColor th sections segTimes (bgColorOf (isDarkBg gray)) img ink t p
        = bgColorOf (isDarkBg gray) := by
    intro th sections segTimes img ink t p hm
    simp [frameColor, hm]
  by_cases hd : meanBrightness gray < 127
  · refine ⟨?_, ?_, ?_, ?_, ?_, hframe⟩ <;>
      simp [isDarkBg, bgColorOf, threshTypeOf, hd] <;> decide
  · refine ⟨?_, ?_, ?_, ?_, ?_, hframe⟩ <;>
      simp [isDarkBg, bgColorOf, threshTypeOf, hd] <;> decide

/-- Witness for C8 at the one-pixel grayscale image `[100]`, whose mean 100
is below 127. -/
theorem background_classification_witness :
    (isDarkBg [(100 : ℚ)] = true ↔ meanBrightness [(100 : ℚ)] < 127) ∧
    (bgColorOf (isDarkBg [(100 : ℚ)]) = (0, 0, 0) ↔
      meanBrightness [(100 : ℚ)] < 127) ∧
    (bgColorOf (isDarkBg [(100 : ℚ)]) = (255, 255, 255) ↔
      ¬meanBrightness [(100 : ℚ)] < 127) ∧
    (threshTypeOf (isDarkBg [(100 : ℚ)]) = .binary ↔
      meanBrightness [(100 : ℚ)] < 127) ∧
    (threshTypeOf (isDarkBg [(100 : ℚ)]) = .binaryInv ↔
      ¬meanBrightness [(100 : ℚ)] < 127) ∧
    (∀ (th : ℚ) (sections : ℤ → List Glyph) (segTimes : List SegTime)
      (img : ℚ × ℚ → ℤ × ℤ × ℤ) (ink : ℚ × ℚ → Bool) (t : ℚ) (p : ℚ × ℚ),
      revealMask th sections segTimes t p = false →
      frameColor th sections segTimes (bgColorOf (isDarkBg [(100 : ℚ)])) img ink t p
        = bgColorOf (isDarkBg [(100 : ℚ)])) :=
  background_classification [(100 : ℚ)] (by simp)

/-! ## Claim C5: word-merge condition and the 5px / 200px scenarios -/

/-- Claim C5: in the proximity word-merge scan the accumulator merges with
the next glyph exactly when the vertical-alignment and the
horizontal-adjacency conditions both hold; concretely, two vertically
aligned 40px-tall glyphs 5px apart merge under both the strict v7.3 and
the loose v8 settings, while 200px apart they merge under neither. -/
theorem word_merge_condition :
    (∀ (V Hmin Hmax : ℚ) (m : List Glyph) (cur g : Glyph),
      mergeStep V Hmin Hmax (m, cur) g = (m, mergeGlyphs cur g) ↔
        (vertMatch V cur g = true ∧ horizMatch Hmin Hmax cur g = true)) ∧
    (safelyMergeWordsV73
      [⟨0, 0, 30, 40, 1200, [], 0, (15, 20)⟩,
       ⟨35, 0, 30, 40, 1200, [], 0, (50, 20)⟩]).length = 1 ∧
    (safelyMergeWordsV8
      [⟨0, 0, 30, 40, 1200, [], 0, (15, 20)⟩,
       ⟨35, 0, 30, 40, 1200, [], 0, (50, 20)⟩]).length = 1 ∧
    (safelyMergeWordsV73
      [⟨0, 0, 30, 40, 1200, [], 0, (15, 20)⟩,
       ⟨230, 0, 30, 40, 1200, [], 0, (245, 20)⟩]).length = 2 ∧
    (safelyMergeWordsV8
      [⟨0, 0, 30, 40, 1200, [], 0, (15, 20)⟩,
       ⟨230, 0, 30, 40, 1200, [], 0, (245, 20)⟩]).length = 2 := by
  have ev : ∀ g1 g2 : Glyph, ∀ aT V Hmin Hmax : ℚ,
      g1.area < aT → g2.area < aT → yxLe g1 g2 = true →
      safelyMergeWords aT V Hmin Hmax [g1, g2] =
        if vertMatch V g1 g2 && horizMatch Hmin Hmax g1 g2 then [mergeGlyphs g1 g2]
        else [g1, g2] := by
    intro g1 g2 aT V Hmin Hmax h1 h2 hyx
    by_cases hm : (vertMatch V g1 g2 && horizMatch Hmin Hmax g1 g2) = true
    · simp [safelyMergeWords, List.filter_cons, h1, h2, insertionSort, insertSorted,
        hyx, mergeStep, hm]
    · simp [safelyMergeWords, List.filter_cons, h1, h2, insertionSort, insertSorted,
        hyx, mergeStep, hm]
  refine ⟨?_, ?_, ?_, ?_, ?_⟩
  case refine_2 =>
    rw [safelyMergeWordsV73, ev] <;>
      norm_num [yxLe, vertMatch, horizMatch]
  case refine_3 =>
    rw [safelyMergeWordsV8, ev] <;>
      norm_num [yxLe, vertMatch, horizMatch]
  case refine_4 =>
    rw [safelyMergeWordsV73, ev] <;>
      norm_num [yxLe, vertMatch, horizMatch]
  case refine_5 =>
    rw [safelyMergeWordsV8, ev] <;>
      norm_num [yxLe, vertMatch, horizMatch]
  intro V Hmin Hmax m cur g
  constructor
  · intro heq
    by_cases hc : (vertMatch V cur g && horizMatch Hmin Hmax cur g) = true
    · exact (Bool.and_eq_true _ _).mp hc
    · simp [mergeStep, hc] at heq
  · rintro ⟨hv, hh⟩
    simp [mergeStep, hv, hh]

/-! ## Claim C6: is thresholding always followed by a 2x2 opening? -/

/-- Counterexample to C6: for the `solid` style the emitted ink map is the
Otsu map itself, not its 2x2 opening — the lone foreground pixel of
`loneDotImg` survives in the output but an opening removes it, so the
output differs from "thresholding followed by a morphological opening" at
pixel (3, 3). -/
theorem solid_style_output_not_opened :
    (getCleanedImage .solid loneDotImg loneDotImg).px 3 3 = true ∧
    (morphOpen2 (threshOut .solid loneDotImg loneDotImg)).px 3 3 = false := by
  constructor
  · decide
  · decide

/-- Claim C6 (amended): only the `pencil` style follows its (adaptive)
thresholding with the 2x2 morphological opening; the `solid` and `normal`
styles return the (Otsu) threshold result directly with no opening.  For
every style the emitted single-channel map keeps the dimensions of the
thresholded map. -/
theorem cleaned_image_opening_only_pencil :
    (∀ o a : BinImg, getCleanedImage .pencil o a = morphOpen2 (threshOut .pencil o a)) ∧
    (∀ o a : BinImg, getCleanedImage .solid o a = threshOut .solid o a) ∧
    (∀ o a : BinImg, getCleanedImage .normal o a = threshOut .normal o a) ∧
    (∀ (s : Style) (o a : BinImg),
      (getCleanedImage s o a).w = (threshOut s o a).w ∧
      (getCleanedImage s o a).h = (threshOut s o a).h) := by
  refine ⟨fun o a => rfl, fun o a => rfl, fun o a => rfl, ?_⟩
  intro s o a
  cases s <;> exact ⟨rfl, rfl⟩

/-! ## Claim C4: zero-ink input renders a static background frame -/

/-- Claim C4: when the ink map has no foreground pixel (so no glyph is
detected and every section is empty), `make_frame` emits the solid
background frame — solid white for a light background — at every query
time, in both the segment mode and the no-segment mode. -/
theorem zero_ink_static_background (th imgW : ℚ) (n : ℕ)
    (segTimes : List SegTime) (img : ℚ × ℚ → ℤ × ℤ × ℤ) (ink : ℚ × ℚ → Bool)
    (hink : ∀ p, ink p = false) (t : ℚ) (p : ℚ × ℚ) :
    frameColor th (buildSections imgW n []) segTimes (bgColorOf false) img ink t p
      = (255, 255, 255) := by
  have hops : makeFrameOps th (buildSections imgW n []) segTimes t = [] := by
    simp [makeFrameOps, buildSections, segGlyphOps]
  by_cases hst : segTimes.isEmpty
  · simp [frameColor, revealMask, hst, canvasRef, hink, bgColorOf]
  · simp [frameColor, revealMask, hst, hops, bgColorOf]

/-- Witness for C4: a 2-second segment over an all-background ink map still
renders pure white at t = 1. -/
theorem zero_ink_static_background_witness :
    frameColor 15 (buildSections 100 1 []) [⟨0, 0, 2⟩] (bgColorOf false)
      (fun _ => (7, 7, 7)) (fun _ => false) 1 (4, 5) = (255, 255, 255) :=
  zero_ink_static_background 15 100 1 [⟨0, 0, 2⟩] (fun _ => (7, 7, 7))
    (fun _ => false) (fun _ => rfl) 1 (4, 5)

end Doodle
